import Mathlib

/-!
Shallow embedding of the folder synchronisation program in `sync_folder.py`.

Paths are modelled as lists of path components (`List String`); a filesystem
snapshot is a finite association list of file paths to file records (content
bytes and a modification time) together with a list of directory paths and
an assignment of modification times to directory paths (read by
`os.path.getmtime` when `should_copy` meets a directory at the destination).
Pure planning functions (`should_skip_file`, `should_copy`, `scan_files`,
`scan_directories`, `copy_tasks`, `delete_tasks`, the chunk partitioning of
the copy set) are translated directly; the effectful phases of
`sync_folders` (directory creation, copying, deleting, obsolete directory
removal) are modelled as state transformers on the snapshot that also emit
an event trace.  Exceptions that the Python code lets propagate are
modelled with `Except`; exceptions that the code catches and logs
(per-task copy/delete failures) leave the state unchanged at that task.
-/

namespace SyncFolder

/-- A path, as its list of components (`os.sep`-separated pieces). -/
abbrev FPath := List String

/-- A regular file: modification time and content bytes. -/
structure FSFile where
  mtime : Nat
  content : List Nat
deriving DecidableEq, Repr

/-- A filesystem snapshot: files (path keyed), directories, and the
modification times of directories.  `dirMtime` is an ambient assignment
(meaningful at the paths listed in `dirs`); the program reads a
directory's timestamp (`os.path.getmtime` inside `should_copy`) but
never observably depends on the timestamp of a directory it created
within the same run, so directory creation leaves `dirMtime` as is. -/
structure FS where
  files : List (FPath × FSFile)
  dirs : List FPath
  dirMtime : FPath → Nat

/-- Look a path up in a file association list (first match). -/
def getFile : List (FPath × FSFile) → FPath → Option FSFile
  | [], _ => none
  | e :: t, p => if e.1 = p then some e.2 else getFile t p

/-- Look a file path up in a snapshot. -/
def FS.lookupFile (fs : FS) (p : FPath) : Option FSFile :=
  getFile fs.files p

/-- Model of `os.path.exists`: true if a file or a directory is at `p`. -/
def pathExists (fs : FS) (p : FPath) : Bool :=
  (fs.lookupFile p).isSome || decide (p ∈ fs.dirs)

/-- Model of `os.path.getmtime`: the recorded time of the file at `p`,
the snapshot's time for the directory at `p`, or a raise
(`FileNotFoundError`, modelled as `none`) when nothing is at `p`. -/
def getmtime (fs : FS) (p : FPath) : Option Nat :=
  match fs.lookupFile p with
  | some f => some f.mtime
  | none => if p ∈ fs.dirs then some (fs.dirMtime p) else none

/-- Is `p` strictly under directory `root` (root a proper path-prefix)? -/
def isUnder (root p : FPath) : Bool :=
  root.isPrefixOf p && decide (root.length < p.length)

/-- The path of `p` relative to `root` (meaningful when `isUnder root p`). -/
def relOf (root p : FPath) : FPath := p.drop root.length

/-- Model of `os.path.basename`: the last component of a path. -/
def basename (p : FPath) : String := p.getLastD ""

/-- Model of `rel_path.count(os.sep)`: separators in a component list. -/
def sepCount (p : FPath) : Nat := p.length - 1

/-- Model of Python `s.startswith(pre)` on filename strings. -/
def startswith (s pre : String) : Bool := pre.data.isPrefixOf s.data

/-- The fixed `skip_files` set of `should_skip_file`. -/
def skip_files : List String :=
  [".DS_Store", "._.DS_Store", "Thumbs.db", "Desktop.ini", ".localized", "__MACOSX"]

/-- Translation of `should_skip_file`: skip names with the resource-fork
two-character head, and the fixed artifact names. -/
def should_skip_file (filename : String) : Bool :=
  if startswith filename "._" then true
  else decide (filename ∈ skip_files)

/-- Translation of `file_hash`: the md5 digest is modelled as an injective
fingerprint of the content byte stream, i.e. the content itself. -/
def file_hash (f : FSFile) : List Nat := f.content

/-- Translation of `should_copy`.  The destination existence test
(`os.path.exists`, true for files and directories alike) comes first,
exactly as in the code; `os.path.getmtime` on a missing source path
raises, and `file_hash` (`open(..., 'rb')`) on a directory raises
`IsADirectoryError` — both modelled by `Except.error`. -/
def should_copy (fs : FS) (src_file dst_file : FPath) : Except Unit Bool :=
  if pathExists fs dst_file then
    match getmtime fs src_file, getmtime fs dst_file with
    | some ms, some md =>
      if md < ms then
        match fs.lookupFile src_file, fs.lookupFile dst_file with
        | some s, some d => .ok (decide (file_hash s ≠ file_hash d))
        | _, _ => .error ()
      else .ok false
    | _, _ => .error ()
  else .ok true

/-- True exactly when `should_copy` returned normally with `True`. -/
def isOkTrue : Except Unit Bool → Bool
  | .ok true => true
  | _ => false

/-- True exactly when `should_copy` raised. -/
def isErr : Except Unit Bool → Bool
  | .error _ => true
  | _ => false

/-- Translation of `scan_files`: every file strictly under `base_dir`,
optionally dropping names matched by `should_skip_file`, paired with its
path relative to `base_dir`. -/
def scan_files (fs : FS) (base_dir : FPath) (apply_skip_filter : Bool) :
    List (FPath × FPath) :=
  fs.files.filterMap (fun e =>
    if isUnder base_dir e.1 then
      if apply_skip_filter && should_skip_file (basename e.1) then none
      else some (e.1, relOf base_dir e.1)
    else none)

/-- Translation of `scan_directories`: every directory strictly under
`base_dir`, paired with its relative path (no skip filter). -/
def scan_directories (fs : FS) (base_dir : FPath) : List (FPath × FPath) :=
  fs.dirs.filterMap (fun d =>
    if isUnder base_dir d then some (d, relOf base_dir d) else none)

/-- The copy set built by `sync_folders`: skip-filtered source scan,
kept when `should_copy` answers `True`. -/
def copy_tasks (fs : FS) (src dst : FPath) : List (FPath × FPath) :=
  (scan_files fs src true).filter
    (fun e => isOkTrue (should_copy fs e.1 (dst ++ e.2)))

/-- The set of relative paths of the skip-filtered source scan. -/
def src_rel_paths (fs : FS) (src : FPath) : List FPath :=
  (scan_files fs src true).map (fun e => e.2)

/-- The delete set built by `sync_folders`: unfiltered destination scan,
kept when the filename is skip-matched or the relative path has no
source counterpart; only the absolute destination path is recorded. -/
def delete_tasks (fs : FS) (src dst : FPath) : List FPath :=
  ((scan_files fs dst false).filter
    (fun e => should_skip_file (basename e.2)
      || !(decide (e.2 ∈ src_rel_paths fs src)))).map (fun e => e.1)

/-- Filesystem events emitted by the effectful phases. -/
inductive Ev where
  | mkdir (p : FPath)
  | copy (src dst : FPath)
  | del (p : FPath)
  | rmdir (p : FPath)
deriving DecidableEq, Repr

/-- Is the event a directory creation? -/
def isMkdirEv : Ev → Bool
  | .mkdir _ => true
  | _ => false

/-- Is the event a file copy? -/
def isCopyEv : Ev → Bool
  | .copy _ _ => true
  | _ => false

/-- Is the event a file deletion? -/
def isDelEv : Ev → Bool
  | .del _ => true
  | _ => false

/-- Is the event an obsolete-directory removal? -/
def isRmdirEv : Ev → Bool
  | .rmdir _ => true
  | _ => false

/-- The nonempty prefixes of a path, shortest first. -/
def prefixesOf (p : FPath) : List FPath :=
  (List.range p.length).map (fun i => p.take (i + 1))

/-- Core of `os.makedirs(..., exist_ok=True)`: walk the given prefixes
shortest first; an existing directory is skipped, a missing one is
created (emitting an event), and a regular file in the way raises
`FileExistsError` — the walk stops with the failure flag `false`,
keeping the directories created so far. -/
def makedirsAux (fs : FS) : List FPath → FS × List Ev × Bool
  | [] => (fs, [], true)
  | q :: qs =>
    if q ∈ fs.dirs then makedirsAux fs qs
    else if (fs.lookupFile q).isSome then (fs, [], false)
    else
      let r := makedirsAux { fs with dirs := q :: fs.dirs } qs
      (r.1, Ev.mkdir q :: r.2.1, r.2.2)

/-- Model of `os.makedirs(p, exist_ok=True)`. -/
def makedirs (fs : FS) (p : FPath) : FS × List Ev × Bool :=
  makedirsAux fs (prefixesOf p)

/-- Remove every entry keyed `p` from a file association list. -/
def eraseKey (p : FPath) : List (FPath × FSFile) → List (FPath × FSFile)
  | [] => []
  | e :: t => if e.1 = p then eraseKey p t else e :: eraseKey p t

/-- Write file `f` at path `p` (overwriting any previous file there). -/
def setFile (fs : FS) (p : FPath) (f : FSFile) : FS :=
  { fs with files := (p, f) :: eraseKey p fs.files }

/-- Translation of `delete_file` (as wrapped by `delete_file_safe`):
remove the file at `p` if present; otherwise, or when `os.remove`
raises because `p` is a directory, the snapshot is unchanged. -/
def delete_file (fs : FS) (p : FPath) : FS × List Ev :=
  if (fs.lookupFile p).isSome then
    ({ fs with files := eraseKey p fs.files }, [Ev.del p])
  else (fs, [])

/-- Translation of `copy_file` as run by `copy_worker`'s `thread_copy`:
`os.makedirs` on the destination parent, then `shutil.copy2`, which
writes the source content and preserves the source modification time.
When a directory occupies the destination path, `copy2` copies into it
at `dst/basename(src)`, and raises `IsADirectoryError` if that joined
path is itself a directory.  A raise from `makedirs`, from a missing
source file or from `copy2` is caught by the worker and leaves the
remaining state unchanged. -/
def copy_file (fs : FS) (src_file dst_file : FPath) : FS × List Ev :=
  if (makedirs fs dst_file.dropLast).2.2 then
    match (makedirs fs dst_file.dropLast).1.lookupFile src_file with
    | none =>
      ((makedirs fs dst_file.dropLast).1, (makedirs fs dst_file.dropLast).2.1)
    | some s =>
      if dst_file ∈ (makedirs fs dst_file.dropLast).1.dirs then
        if dst_file ++ [basename src_file]
            ∈ (makedirs fs dst_file.dropLast).1.dirs then
          ((makedirs fs dst_file.dropLast).1,
            (makedirs fs dst_file.dropLast).2.1)
        else
          (setFile (makedirs fs dst_file.dropLast).1
              (dst_file ++ [basename src_file]) s,
            (makedirs fs dst_file.dropLast).2.1
              ++ [Ev.copy src_file (dst_file ++ [basename src_file])])
      else
        (setFile (makedirs fs dst_file.dropLast).1 dst_file s,
          (makedirs fs dst_file.dropLast).2.1 ++ [Ev.copy src_file dst_file])
  else ((makedirs fs dst_file.dropLast).1, (makedirs fs dst_file.dropLast).2.1)

/-- Loop body of `sync_directories` over a precomputed source directory
scan: create each missing destination counterpart; a raise from
`makedirs` propagates (failure flag `false`) and aborts the loop. -/
def sync_directories_aux (dst : FPath) (fs : FS) :
    List (FPath × FPath) → FS × List Ev × Bool
  | [] => (fs, [], true)
  | e :: t =>
    if pathExists fs (dst ++ e.2) then sync_directories_aux dst fs t
    else
      if (makedirs fs (dst ++ e.2)).2.2 then
        ((sync_directories_aux dst (makedirs fs (dst ++ e.2)).1 t).1,
          (makedirs fs (dst ++ e.2)).2.1
            ++ (sync_directories_aux dst (makedirs fs (dst ++ e.2)).1 t).2.1,
          (sync_directories_aux dst (makedirs fs (dst ++ e.2)).1 t).2.2)
      else ((makedirs fs (dst ++ e.2)).1, (makedirs fs (dst ++ e.2)).2.1, false)

/-- Translation of `sync_directories`: scan source directories once,
then create each missing destination counterpart. -/
def sync_directories (fs : FS) (src dst : FPath) : FS × List Ev × Bool :=
  sync_directories_aux dst fs (scan_directories fs src)

/-- Is the directory `p` empty (model of `os.listdir(p) == []`)? -/
def isEmptyDir (fs : FS) (p : FPath) : Bool :=
  fs.files.all (fun e => !(isUnder p e.1))
    && fs.dirs.all (fun d => !(isUnder p d))

/-- State threaded through `remove_obsolete_directories`: the snapshot,
the directories removed so far and the non-empty ones warned about. -/
structure RemState where
  fs : FS
  removed : List (FPath × FPath)
  warned : List (FPath × FPath)

/-- Loop body of `remove_obsolete_directories`: a destination directory
with a source counterpart is left alone; otherwise it is removed when
empty and warned about (and retained) when not. -/
def remove_step (src_dirs : List FPath) (st : RemState) (e : FPath × FPath) :
    RemState :=
  if decide (e.2 ∈ src_dirs) then st
  else if isEmptyDir st.fs e.1 then
    { fs := { st.fs with dirs := st.fs.dirs.filter (fun d => !(decide (d = e.1))) },
      removed := st.removed ++ [e], warned := st.warned }
  else { st with warned := st.warned ++ [e] }

/-- The destination directory scan sorted by separator count descending
(children before parents), as `dst_dirs.sort(key=..., reverse=True)`:
a stable comparison sort on that key. -/
def obsolete_candidates (fs : FS) (dst : FPath) : List (FPath × FPath) :=
  (scan_directories fs dst).insertionSort
    (fun a b => sepCount b.2 ≤ sepCount a.2)

/-- The set of source-relative directory paths (`src_dirs` in the code). -/
def src_dir_rels (fs : FS) (src : FPath) : List FPath :=
  (scan_directories fs src).map (fun e => e.2)

/-- Translation of `remove_obsolete_directories`. -/
def remove_obsolete_directories (fs : FS) (src dst : FPath) : RemState :=
  (obsolete_candidates fs dst).foldl
    (remove_step (src_dir_rels fs src))
    ⟨fs, [], []⟩

/-- Worker count: `min(cpu_count(), max(1, len(copy_tasks) // 100))`. -/
def num_processes (cpu_count n : Nat) : Nat :=
  min cpu_count (max 1 (n / 100))

/-- Chunk length: `len(copy_tasks) // num_processes + 1`. -/
def chunk_size (n np : Nat) : Nat := n / np + 1

/-- The Python chunking `[lst[i:i+cs] for i in range(0, len(lst), cs)]`. -/
def chunksOf (l : List (FPath × FPath)) (cs : Nat) : List (List (FPath × FPath)) :=
  (List.range ((l.length + cs - 1) / cs)).map
    (fun k => (l.drop (k * cs)).take cs)

/-- Sequential model of the copy phase applied to the flattened chunks
(per-file effects commute because destination paths are distinct, so the
pool/thread interleaving is modelled by list order). -/
def run_copies (dst : FPath) (fs : FS) : List (FPath × FPath) → FS × List Ev
  | [] => (fs, [])
  | t :: ts =>
    let r1 := copy_file fs t.1 (dst ++ t.2)
    let r2 := run_copies dst r1.1 ts
    (r2.1, r1.2 ++ r2.2)

/-- Sequential model of the delete phase over the delete set. -/
def run_deletes (fs : FS) : List FPath → FS × List Ev
  | [] => (fs, [])
  | p :: ps =>
    let r1 := delete_file fs p
    let r2 := run_deletes r1.1 ps
    (r2.1, r1.2 ++ r2.2)

/-- The snapshot after the directory phase of `sync_folders`:
`os.makedirs(destination_folder, exist_ok=True)` then
`sync_directories` (lines 209-210). -/
def plan_state (fs : FS) (src dst : FPath) : FS :=
  (sync_directories (makedirs fs dst).1 src dst).1

/-- The directory-phase events of `sync_folders`. -/
def dir_events (fs : FS) (src dst : FPath) : List Ev :=
  (makedirs fs dst).2.1 ++ (sync_directories (makedirs fs dst).1 src dst).2.1

/-- The flattened chunk partition of the copy set actually fed to the
process pool (lines 234-237); per-file effects commute because planned
destination paths are distinct, so pool interleaving is modelled by
chunk order. -/
def exec_copy_list (cpu : Nat) (fs2 : FS) (src dst : FPath) :
    List (FPath × FPath) :=
  (chunksOf (copy_tasks fs2 src dst)
    (chunk_size (copy_tasks fs2 src dst).length
      (num_processes cpu (copy_tasks fs2 src dst).length))).flatten

/-- Snapshot and events after the copy phase. -/
def copy_state (cpu : Nat) (fs : FS) (src dst : FPath) : FS × List Ev :=
  run_copies dst (plan_state fs src dst)
    (exec_copy_list cpu (plan_state fs src dst) src dst)

/-- Snapshot and events after the delete phase. -/
def delete_state (cpu : Nat) (fs : FS) (src dst : FPath) : FS × List Ev :=
  run_deletes (copy_state cpu fs src dst).1
    (delete_tasks (plan_state fs src dst) src dst)

/-- Final state of a run: obsolete-directory removal after deletion. -/
def final_state (cpu : Nat) (fs : FS) (src dst : FPath) : RemState :=
  remove_obsolete_directories (delete_state cpu fs src dst).1 src dst

/-- The successful-run result of `sync_folders`: final snapshot plus the
full event trace in phase order. -/
def sync_run (cpu : Nat) (fs : FS) (src dst : FPath) : FS × List Ev :=
  ((final_state cpu fs src dst).fs,
    dir_events fs src dst ++ (copy_state cpu fs src dst).2
      ++ (delete_state cpu fs src dst).2
      ++ (final_state cpu fs src dst).removed.map (fun e => Ev.rmdir e.1))

/-- Translation of `sync_folders`.  `cpu_count` abstracts the machine's
`multiprocessing.cpu_count()`; `threads_per_worker` only bounds thread
concurrency and has no further observable effect in the model.  The
result is the final snapshot and the event trace, or an error for the
exceptions the code lets propagate: a missing source root, a raise from
the unprotected `makedirs` calls, and a raise from `should_copy` in the
planning loop (lines 215-218 run outside any `try`, so an
`IsADirectoryError` or `FileNotFoundError` there aborts the run). -/
def sync_folders (cpu_count : Nat) (fs : FS) (source_folder destination_folder : FPath)
    (threads_per_worker : Nat := 4) : Except String (FS × List Ev) :=
  if !pathExists fs source_folder then
    .error "La cartella sorgente non esiste"
  else if !(makedirs fs destination_folder).2.2 then
    .error "os.makedirs destination_folder"
  else if !(sync_directories (makedirs fs destination_folder).1
      source_folder destination_folder).2.2 then
    .error "os.makedirs in sync_directories"
  else if (scan_files (plan_state fs source_folder destination_folder)
      source_folder true).any (fun e =>
        isErr (should_copy (plan_state fs source_folder destination_folder)
          e.1 (destination_folder ++ e.2))) then
    .error "should_copy raised in the planning loop"
  else
    .ok (sync_run cpu_count fs source_folder destination_folder)

/-- The skip set with the resource-fork entry removed, for comparing with
`should_skip_file` (refinement candidate, not part of the program). -/
def skip_files_pruned : List String :=
  [".DS_Store", "Thumbs.db", "Desktop.ini", ".localized", "__MACOSX"]

/-- `should_skip_file` over the pruned skip set (refinement candidate). -/
def should_skip_file_pruned (filename : String) : Bool :=
  if startswith filename "._" then true
  else decide (filename ∈ skip_files_pruned)

/-- Small concrete snapshot used by witness statements (its directory
timestamps are all 9, newer than the source file's). -/
def fsA : FS :=
  ⟨[(["s", "x"], ⟨5, [1]⟩), (["d", "y"], ⟨9, [2]⟩)], [["s"], ["d"]], fun _ => 9⟩

/-- Concrete snapshot with a junk artifact under the destination. -/
def fsB : FS :=
  ⟨[(["s", "a.txt"], ⟨1, [1]⟩), (["d", ".DS_Store"], ⟨1, [2]⟩)],
    [["s"], ["d"]], fun _ => 0⟩

/-- Concrete snapshot with an empty obsolete destination directory. -/
def fsC : FS := ⟨[], [["s"], ["d"], ["d", "old"]], fun _ => 0⟩

/-- Concrete snapshot in which a destination file sits at the relative
path of a source directory, blocking the copy of the file inside it. -/
def fsX : FS :=
  ⟨[(["src", "a", "f.txt"], ⟨1, [7]⟩), (["dst", "a"], ⟨1, [8]⟩)],
    [["src"], ["src", "a"], ["dst"]], fun _ => 0⟩

/-- Concrete snapshot in which an empty destination directory sits at
the destination path of the source file `a`, with a directory timestamp
(5) not older than the source file's (1). -/
def fsY : FS :=
  ⟨[(["src", "a"], ⟨1, [7]⟩)], [["src"], ["dst"], ["dst", "a"]], fun _ => 5⟩

/-- Concrete snapshot exercising all four phases: a new source
subdirectory, two copies, a stale destination file and its directory. -/
def fsD : FS :=
  ⟨[(["src", "a.txt"], ⟨1, [1]⟩), (["src", "sub", "b.txt"], ⟨2, [3]⟩),
      (["dst", "stale", "c.txt"], ⟨1, [2]⟩)],
    [["src"], ["src", "sub"], ["dst"], ["dst", "stale"]], fun _ => 0⟩

/-- A filename is one of the artifact names singled out by the spec, or
has the two-character resource-fork head. -/
def named_junk (s : String) : Prop :=
  s = ".DS_Store" ∨ s = "Thumbs.db" ∨ s = "Desktop.ini" ∨ s = ".localized"
    ∨ startswith s "._" = true

/- ### Helper lemmas about paths and scans -/

theorem isUnder_iff {root p : FPath} :
    isUnder root p = true ↔ ∃ r : FPath, r ≠ [] ∧ p = root ++ r := by
  unfold isUnder
  rw [Bool.and_eq_true, List.isPrefixOf_iff_prefix, decide_eq_true_eq]
  constructor
  · rintro ⟨⟨r, rfl⟩, hlen⟩
    refine ⟨r, ?_, rfl⟩
    intro h
    subst h
    simp at hlen
  · rintro ⟨r, hr, rfl⟩
    refine ⟨List.prefix_append _ _, ?_⟩
    have : 0 < r.length := List.length_pos.mpr hr
    simp [this]

theorem relOf_append (root r : FPath) : relOf root (root ++ r) = r := by
  simp [relOf]

theorem eq_append_relOf {root p : FPath} (h : isUnder root p = true) :
    p = root ++ relOf root p := by
  obtain ⟨r, _, rfl⟩ := isUnder_iff.mp h
  rw [relOf_append]

theorem getLastD_irrel {l : List String} (h : l ≠ []) (d d' : String) :
    l.getLastD d = l.getLastD d' := by
  cases l with
  | nil => exact absurd rfl h
  | cons x t => rw [List.getLastD_cons, List.getLastD_cons]

theorem basename_append {r : FPath} (root : FPath) (h : r ≠ []) :
    basename (root ++ r) = basename r := by
  induction root with
  | nil => simp
  | cons x t ih =>
    have hne : t ++ r ≠ [] := by
      simp [h]
    unfold basename
    rw [List.cons_append, List.getLastD_cons]
    rw [getLastD_irrel hne x ""]
    exact ih

theorem mem_scan_files {fs : FS} {root : FPath} {flt : Bool} {a r : FPath} :
    (a, r) ∈ scan_files fs root flt ↔
      ∃ f, (a, f) ∈ fs.files ∧ isUnder root a = true
        ∧ (flt = true → should_skip_file (basename a) = false)
        ∧ r = relOf root a := by
  unfold scan_files
  rw [List.mem_filterMap]
  constructor
  · rintro ⟨⟨p, f⟩, hmem, heq⟩
    by_cases hu : isUnder root p = true
    · rw [if_pos hu] at heq
      by_cases hsk : (flt && should_skip_file (basename p)) = true
      · rw [if_pos hsk] at heq
        exact absurd heq (by simp)
      · rw [if_neg hsk] at heq
        obtain ⟨rfl, rfl⟩ := Prod.mk.injEq .. ▸ Option.some.injEq .. ▸ heq
        refine ⟨f, hmem, hu, ?_, rfl⟩
        intro hf
        subst hf
        simpa using hsk
    · rw [if_neg hu] at heq
      exact absurd heq (by simp)
  · rintro ⟨f, hmem, hu, hsk, rfl⟩
    refine ⟨(a, f), hmem, ?_⟩
    rw [if_pos hu, if_neg ?_]
    cases flt with
    | false => simp
    | true => simp [hsk rfl]

theorem mem_scan_directories {fs : FS} {root : FPath} {a r : FPath} :
    (a, r) ∈ scan_directories fs root ↔
      a ∈ fs.dirs ∧ isUnder root a = true ∧ r = relOf root a := by
  unfold scan_directories
  rw [List.mem_filterMap]
  constructor
  · rintro ⟨d, hmem, heq⟩
    by_cases hu : isUnder root d = true
    · rw [if_pos hu] at heq
      obtain ⟨rfl, rfl⟩ := Prod.mk.injEq .. ▸ Option.some.injEq .. ▸ heq
      exact ⟨hmem, hu, rfl⟩
    · rw [if_neg hu] at heq
      exact absurd heq (by simp)
  · rintro ⟨hmem, hu, rfl⟩
    exact ⟨a, hmem, by rw [if_pos hu]⟩

theorem scan_rel_eq {fs : FS} {root : FPath} {flt : Bool} {a r : FPath}
    (h : (a, r) ∈ scan_files fs root flt) : r = relOf root a := by
  obtain ⟨f, _, _, _, hr⟩ := mem_scan_files.mp h
  exact hr

theorem mem_copy_tasks {fs : FS} {src dst p r : FPath} :
    (p, r) ∈ copy_tasks fs src dst ↔
      (p, r) ∈ scan_files fs src true
        ∧ isOkTrue (should_copy fs p (dst ++ r)) = true := by
  unfold copy_tasks
  rw [List.mem_filter]

theorem copy_task_shape {fs : FS} {src : FPath} {flt : Bool} {p r : FPath}
    (h : (p, r) ∈ scan_files fs src flt) :
    r ≠ [] ∧ p = src ++ r := by
  obtain ⟨f, _, hu, _, hr⟩ := mem_scan_files.mp h
  obtain ⟨r0, hr0, hp⟩ := isUnder_iff.mp hu
  subst hp
  rw [relOf_append] at hr
  subst hr
  exact ⟨hr0, rfl⟩

theorem copy_task_not_skipped {fs : FS} {src dst p r : FPath}
    (h : (p, r) ∈ copy_tasks fs src dst) :
    should_skip_file (basename r) = false ∧ r ∈ src_rel_paths fs src := by
  have hs := (mem_copy_tasks.mp h).1
  obtain ⟨f, _, hu, hsk, hr⟩ := mem_scan_files.mp hs
  obtain ⟨hne, hp⟩ := copy_task_shape hs
  constructor
  · have := hsk rfl
    rw [hp, basename_append src hne] at this
    exact this
  · exact List.mem_map.mpr ⟨(p, r), hs, rfl⟩

theorem mem_delete_tasks {fs : FS} {src dst a : FPath} :
    a ∈ delete_tasks fs src dst ↔
      ∃ r, (a, r) ∈ scan_files fs dst false
        ∧ (should_skip_file (basename r) = true ∨ r ∉ src_rel_paths fs src) := by
  unfold delete_tasks
  rw [List.mem_map]
  constructor
  · rintro ⟨⟨a', r⟩, hmem, rfl⟩
    rw [List.mem_filter] at hmem
    refine ⟨r, hmem.1, ?_⟩
    have hb := hmem.2
    simp only [Bool.or_eq_true, Bool.not_eq_true', decide_eq_false_iff_not] at hb
    exact hb
  · rintro ⟨r, hmem, hpred⟩
    refine ⟨(a, r), List.mem_filter.mpr ⟨hmem, ?_⟩, rfl⟩
    simp only [Bool.or_eq_true, Bool.not_eq_true', decide_eq_false_iff_not]
    exact hpred

theorem named_junk_skip {s : String} (h : named_junk s) :
    should_skip_file s = true := by
  rcases h with rfl | rfl | rfl | rfl | h
  · decide
  · decide
  · decide
  · decide
  · unfold should_skip_file
    rw [if_pos h]

theorem should_copy_files_eval {fs : FS} {a b : FPath} {f g : FSFile}
    (ha : fs.lookupFile a = some f) (hb : fs.lookupFile b = some g) :
    should_copy fs a b =
      if g.mtime < f.mtime then .ok (decide (file_hash f ≠ file_hash g))
      else .ok false := by
  have hex : pathExists fs b = true := by
    unfold pathExists
    rw [hb]
    rfl
  have hga : getmtime fs a = some f.mtime := by
    unfold getmtime
    rw [ha]
  have hgb : getmtime fs b = some g.mtime := by
    unfold getmtime
    rw [hb]
  unfold should_copy
  rw [hex, if_pos rfl, hga, hgb, ha, hb]

theorem should_copy_dir_eval {fs : FS} {a b : FPath} {f : FSFile}
    (ha : fs.lookupFile a = some f) (hb : fs.lookupFile b = none)
    (hd : b ∈ fs.dirs) :
    should_copy fs a b =
      if fs.dirMtime b < f.mtime then .error () else .ok false := by
  have hex : pathExists fs b = true := by
    unfold pathExists
    rw [hb]
    simp [hd]
  have hga : getmtime fs a = some f.mtime := by
    unfold getmtime
    rw [ha]
  have hgb : getmtime fs b = some (fs.dirMtime b) := by
    unfold getmtime
    rw [hb, if_pos hd]
  unfold should_copy
  rw [hex, if_pos rfl, hga, hgb, ha, hb]

/- ### Claim theorems -/

/-- C1: `should_copy` returns true when the destination path does not
exist (`os.path.exists` false: no file and no directory there); when
source and destination are both regular files, if the source
modification time is strictly greater it returns true iff the content
digests differ, and otherwise it returns false with no condition on the
contents; and when a directory whose modification time is at least the
source file's occupies the destination, it likewise returns false.
(With a strictly older directory at the destination the code raises
`IsADirectoryError` out of `file_hash` instead of returning, modelled
by `Except.error` — a digest of a directory does not exist.) -/
theorem should_copy_spec (fs : FS) (src dst : FPath) :
    (pathExists fs dst = false → should_copy fs src dst = .ok true)
    ∧ (∀ d s : FSFile, fs.lookupFile dst = some d → fs.lookupFile src = some s →
        (d.mtime < s.mtime →
          (should_copy fs src dst = .ok true ↔ file_hash s ≠ file_hash d))
        ∧ (s.mtime ≤ d.mtime → should_copy fs src dst = .ok false))
    ∧ (∀ s : FSFile, fs.lookupFile src = some s → fs.lookupFile dst = none →
        dst ∈ fs.dirs → s.mtime ≤ fs.dirMtime dst →
        should_copy fs src dst = .ok false)
    ∧ (∀ s : FSFile, fs.lookupFile src = some s → fs.lookupFile dst = none →
        dst ∈ fs.dirs → fs.dirMtime dst < s.mtime →
        should_copy fs src dst = .error ()) := by
  refine ⟨?_, ?_, ?_, ?_⟩
  · intro h
    unfold should_copy
    rw [h]
    rfl
  · intro d s hd hs
    have he := should_copy_files_eval hs hd
    constructor
    · intro hlt
      rw [he, if_pos hlt]
      simp
    · intro hle
      rw [he, if_neg (by omega)]
  · intro s hs hdn hdd hle
    rw [should_copy_dir_eval hs hdn hdd, if_neg (by omega)]
  · intro s hs hdn hdd hlt
    rw [should_copy_dir_eval hs hdn hdd, if_pos hlt]

/-- Witness for C1 at concrete snapshots: a missing destination yields
true, a destination file at least as new as the source yields false, a
destination directory at least as new as the source file yields false,
and a strictly older destination directory raises. -/
theorem should_copy_spec_witness :
    should_copy fsA ["s", "x"] ["d", "none"] = .ok true
    ∧ should_copy fsA ["s", "x"] ["d", "y"] = .ok false
    ∧ should_copy fsA ["s", "x"] ["d"] = .ok false
    ∧ should_copy fsX ["src", "a", "f.txt"] ["src", "a"] = .error () := by
  refine ⟨?_, ?_, ?_, ?_⟩
  · exact (should_copy_spec fsA ["s", "x"] ["d", "none"]).1 (by decide)
  · exact ((should_copy_spec fsA ["s", "x"] ["d", "y"]).2.1 ⟨9, [2]⟩ ⟨5, [1]⟩
      (by decide) (by decide)).2 (by decide)
  · exact (should_copy_spec fsA ["s", "x"] ["d"]).2.2.1 ⟨5, [1]⟩
      (by decide) (by decide) (by decide) (by decide)
  · exact (should_copy_spec fsX ["src", "a", "f.txt"] ["src", "a"]).2.2.2
      ⟨1, [7]⟩ (by decide) (by decide) (by decide) (by decide)

/-- C10: removing the resource-fork entry from the skip set leaves the
skip predicate extensionally unchanged, because that entry is already
matched by the two-character head rule. -/
theorem should_skip_file_pruned_eq (s : String) :
    should_skip_file s = should_skip_file_pruned s := by
  unfold should_skip_file should_skip_file_pruned
  by_cases hp : startswith s "._" = true
  · rw [if_pos hp, if_pos hp]
  · rw [if_neg hp, if_neg hp]
    have hs : s ≠ "._.DS_Store" := by
      intro h
      subst h
      exact hp (by decide)
    rw [decide_eq_decide]
    simp only [skip_files, skip_files_pruned, List.mem_cons,
      List.mem_singleton, List.not_mem_nil, or_false]
    tauto

/-- C6: `should_skip_file` is true exactly for filenames with the
two-character resource-fork head or one of the fixed artifact names (it
is a pure function of the filename, with no I/O in the model);
consequently an entry whose filename is one of the spec's junk names is
never in the copy set, and a destination scan entry with such a filename
is always in the delete set. -/
theorem should_skip_file_exact :
    (∀ s : String, should_skip_file s = true ↔
      (startswith s "._" = true ∨ s = ".DS_Store" ∨ s = "._.DS_Store"
        ∨ s = "Thumbs.db" ∨ s = "Desktop.ini" ∨ s = ".localized"
        ∨ s = "__MACOSX"))
    ∧ (∀ (fs : FS) (src dst p r : FPath), named_junk (basename r) →
        (p, r) ∉ copy_tasks fs src dst)
    ∧ (∀ (fs : FS) (src dst a r : FPath), (a, r) ∈ scan_files fs dst false →
        named_junk (basename r) → a ∈ delete_tasks fs src dst) := by
  refine ⟨?_, ?_, ?_⟩
  · intro s
    unfold should_skip_file
    by_cases hp : startswith s "._" = true
    · simp [hp]
    · rw [if_neg hp]
      simp [skip_files, hp]
  · intro fs src dst p r hj hc
    have h1 := (copy_task_not_skipped hc).1
    rw [named_junk_skip hj] at h1
    exact Bool.true_eq_false ▸ h1
  · intro fs src dst a r hs hj
    exact mem_delete_tasks.mpr ⟨r, hs, Or.inl (named_junk_skip hj)⟩

/-- Witness for C6: the concrete junk file under the destination of
`fsB` is classified for deletion. -/
theorem should_skip_file_exact_witness :
    ["d", ".DS_Store"] ∈ delete_tasks fsB ["s"] ["d"] :=
  should_skip_file_exact.2.2 fsB ["s"] ["d"] ["d", ".DS_Store"] [".DS_Store"]
    (by decide) (Or.inl rfl)

/-- C7: when the source root does not exist, `sync_folders` raises at
once; no snapshot is produced, so in particular the destination root is
not created and nothing is scanned, copied or deleted. -/
theorem sync_folders_missing_source (cpu : Nat) (fs : FS) (src dst : FPath)
    (t : Nat) (h : pathExists fs src = false) :
    sync_folders cpu fs src dst t = .error "La cartella sorgente non esiste" := by
  unfold sync_folders
  rw [h]
  simp

/-- Witness for C7: the empty snapshot has no source root. -/
theorem sync_folders_missing_source_witness :
    sync_folders 1 ⟨[], [], fun _ => 0⟩ ["s"] ["d"] 4
      = .error "La cartella sorgente non esiste" :=
  sync_folders_missing_source 1 ⟨[], [], fun _ => 0⟩ ["s"] ["d"] 4 (by decide)

/-- C3: a destination scan entry is in the delete set iff its filename
matches the skip predicate or its relative path is absent from the
skip-filtered source relative paths; and the destination scan feeding
the delete set is characterised with no skip condition at all. -/
theorem delete_tasks_spec (fs : FS) (src dst : FPath) :
    (∀ a r : FPath, (a, r) ∈ scan_files fs dst false →
      (a ∈ delete_tasks fs src dst ↔
        (should_skip_file (basename r) = true ∨ r ∉ src_rel_paths fs src)))
    ∧ (∀ a r : FPath, (a, r) ∈ scan_files fs dst false ↔
        ∃ f, (a, f) ∈ fs.files ∧ isUnder dst a = true ∧ r = relOf dst a) := by
  constructor
  · intro a r hmem
    constructor
    · intro hdel
      obtain ⟨r', hmem', hpred⟩ := mem_delete_tasks.mp hdel
      have : r' = r := by
        rw [scan_rel_eq hmem', scan_rel_eq hmem]
      rw [this] at hpred
      exact hpred
    · intro hpred
      exact mem_delete_tasks.mpr ⟨r, hmem, hpred⟩
  · intro a r
    rw [mem_scan_files]
    constructor
    · rintro ⟨f, hf, hu, _, hr⟩
      exact ⟨f, hf, hu, hr⟩
    · rintro ⟨f, hf, hu, hr⟩
      exact ⟨f, hf, hu, by simp, hr⟩

/-- Witness for C3: the stale destination file of `fsA` (no source
counterpart) is in the delete set. -/
theorem delete_tasks_spec_witness :
    ["d", "y"] ∈ delete_tasks fsA ["s"] ["d"] :=
  ((delete_tasks_spec fsA ["s"] ["d"]).1 ["d", "y"] ["y"] (by decide)).mpr
    (Or.inr (by decide))

/-- C4: a relative path never occurs both as the relative path of a copy
task and as the relative path of a destination entry of the delete set. -/
theorem copy_delete_disjoint (fs : FS) (src dst : FPath) (p r a r' : FPath)
    (hc : (p, r) ∈ copy_tasks fs src dst)
    (hdmem : (a, r') ∈ scan_files fs dst false)
    (hdel : a ∈ delete_tasks fs src dst) : r' ≠ r := by
  intro hrr
  subst hrr
  obtain ⟨hskip, hsrc⟩ := copy_task_not_skipped hc
  obtain ⟨r'', hmem'', hpred⟩ := mem_delete_tasks.mp hdel
  have heqr : r'' = r' := by
    rw [scan_rel_eq hmem'', scan_rel_eq hdmem]
  rw [heqr] at hpred
  rcases hpred with hsk | habs
  · rw [hskip] at hsk
    exact Bool.false_ne_true hsk
  · exact habs hsrc

/-- Witness for C4 on `fsA`: the copy task for relative path x and the
delete entry for relative path y coexist, and their paths differ. -/
theorem copy_delete_disjoint_witness :
    (["s", "x"], [("x" : String)]) ∈ copy_tasks fsA ["s"] ["d"]
    ∧ (["d", "y"], [("y" : String)]) ∈ scan_files fsA ["d"] false
    ∧ ["d", "y"] ∈ delete_tasks fsA ["s"] ["d"]
    ∧ [("y" : String)] ≠ [("x" : String)] :=
  ⟨by decide, by decide, by decide,
    copy_delete_disjoint fsA ["s"] ["d"] ["s", "x"] ["x"] ["d", "y"] ["y"]
      (by decide) (by decide) (by decide)⟩

theorem chunksOf_nil (cs : Nat) : chunksOf [] cs = [] := by
  unfold chunksOf
  cases cs with
  | zero => simp
  | succ c => simp [Nat.div_eq_of_lt (Nat.lt_succ_of_le (Nat.le_refl c))]

theorem chunksOf_cons_step (c : Nat) (x : FPath × FPath)
    (xs : List (FPath × FPath)) :
    chunksOf (x :: xs) (c + 1)
      = (x :: xs).take (c + 1) :: chunksOf ((x :: xs).drop (c + 1)) (c + 1) := by
  unfold chunksOf
  have hcount : ((x :: xs).length + (c + 1) - 1) / (c + 1)
      = ((x :: xs).length - 1) / (c + 1) + 1 := by
    have : (x :: xs).length + (c + 1) - 1 = ((x :: xs).length - 1) + (c + 1) := by
      simp only [List.length_cons]
      omega
    rw [this, Nat.add_div_right _ (Nat.succ_pos c)]
  rw [hcount]
  have hcount2 : (((x :: xs).drop (c + 1)).length + (c + 1) - 1) / (c + 1)
      = ((x :: xs).length - 1) / (c + 1) := by
    rw [List.length_drop]
    rcases le_or_lt ((x :: xs).length) (c + 1) with hle | hlt
    · have h1 : (x :: xs).length - (c + 1) = 0 := Nat.sub_eq_zero_of_le hle
      rw [h1]
      have h2 : (x :: xs).length - 1 < c + 1 := by
        have := List.length_pos.mpr (List.cons_ne_nil x xs)
        omega
      rw [Nat.div_eq_of_lt h2]
      simp [Nat.div_eq_of_lt (Nat.lt_succ_of_le (Nat.le_refl c))]
    · have h1 : (x :: xs).length - (c + 1) + (c + 1) - 1
          = ((x :: xs).length - 1 - (c + 1)) + (c + 1) := by omega
      rw [h1, Nat.add_div_right _ (Nat.succ_pos c)]
      have h2 : (x :: xs).length - 1 = ((x :: xs).length - 1 - (c + 1)) + (c + 1) := by
        omega
      rw [h2, Nat.add_div_right _ (Nat.succ_pos c), Nat.add_sub_cancel]
  rw [hcount2, List.range_succ_eq_map, List.map_cons]
  simp only [Nat.zero_mul, List.drop_zero, List.map_map]
  congr 1
  apply List.map_congr_left
  intro k _
  simp only [Function.comp_apply]
  rw [List.drop_drop]
  congr 2
  simp [Nat.succ_mul]
  omega

theorem chunksOf_flatten (c : Nat) (l : List (FPath × FPath)) :
    (chunksOf l (c + 1)).flatten = l := by
  suffices h : ∀ (n : Nat) (l : List (FPath × FPath)), l.length = n →
      (chunksOf l (c + 1)).flatten = l from h l.length l rfl
  intro n
  induction n using Nat.strong_induction_on with
  | _ n ih =>
    intro l hn
    cases l with
    | nil => simp [chunksOf_nil]
    | cons x xs =>
      rw [chunksOf_cons_step, List.flatten_cons]
      have hlt : ((x :: xs).drop (c + 1)).length < n := by
        subst hn
        simp only [List.length_drop, List.length_cons]
        omega
      rw [ih _ hlt _ rfl, List.take_append_drop]

theorem chunksOf_lengths (c : Nat) (l : List (FPath × FPath))
    (ch : List (FPath × FPath)) (h : ch ∈ chunksOf l (c + 1)) :
    ch ≠ [] ∧ ch.length ≤ c + 1 := by
  unfold chunksOf at h
  obtain ⟨k, hk, rfl⟩ := List.mem_map.mp h
  rw [List.mem_range] at hk
  have hkn : k * (c + 1) < l.length := by
    have h1 : k + 1 ≤ (l.length + (c + 1) - 1) / (c + 1) := hk
    have h2 : (k + 1) * (c + 1) ≤ l.length + (c + 1) - 1 :=
      (Nat.le_div_iff_mul_le (Nat.succ_pos c)).mp h1
    have hmul : (k + 1) * (c + 1) = k * (c + 1) + (c + 1) := by ring
    omega
  constructor
  · intro hemp
    have := congrArg List.length hemp
    simp only [List.length_take, List.length_drop, List.length_nil] at this
    omega
  · simpa using List.length_take_le _ _

/-- C9: with at least one available core and a non-empty copy set, the
worker count is min(cpu count, max(1, count / 100)), the chunk length is
count / workers + 1, the chunks flatten back to exactly the copy task
list (each task lands in exactly one chunk), and every chunk is nonempty
of length at most the chunk size. -/
theorem copy_chunking_spec (cpu : Nat) (fs : FS) (src dst : FPath)
    (hcpu : 1 ≤ cpu) (hne : copy_tasks fs src dst ≠ []) :
    num_processes cpu (copy_tasks fs src dst).length
        = min cpu (max 1 ((copy_tasks fs src dst).length / 100))
    ∧ chunk_size (copy_tasks fs src dst).length
          (num_processes cpu (copy_tasks fs src dst).length)
        = (copy_tasks fs src dst).length
            / num_processes cpu (copy_tasks fs src dst).length + 1
    ∧ (chunksOf (copy_tasks fs src dst)
        (chunk_size (copy_tasks fs src dst).length
          (num_processes cpu (copy_tasks fs src dst).length))).flatten
        = copy_tasks fs src dst
    ∧ ∀ ch ∈ chunksOf (copy_tasks fs src dst)
        (chunk_size (copy_tasks fs src dst).length
          (num_processes cpu (copy_tasks fs src dst).length)),
        ch ≠ [] ∧ ch.length ≤ chunk_size (copy_tasks fs src dst).length
          (num_processes cpu (copy_tasks fs src dst).length) := by
  refine ⟨rfl, rfl, ?_, ?_⟩
  · exact chunksOf_flatten _ _
  · intro ch hch
    exact chunksOf_lengths _ _ ch hch

/-- Witness for C9 on `fsA` with two cores: a single chunk holding the
single copy task flattens back to the copy set. -/
theorem copy_chunking_spec_witness :
    (chunksOf (copy_tasks fsA ["s"] ["d"])
      (chunk_size (copy_tasks fsA ["s"] ["d"]).length
        (num_processes 2 (copy_tasks fsA ["s"] ["d"]).length))).flatten
      = copy_tasks fsA ["s"] ["d"] :=
  (copy_chunking_spec 2 fsA ["s"] ["d"] (by decide) (by decide)).2.2.1

/- ### Lemmas about remove_obsolete_directories -/

theorem remove_step_files (srcRels : List FPath) (st : RemState)
    (e : FPath × FPath) :
    (remove_step srcRels st e).fs.files = st.fs.files := by
  unfold remove_step
  split
  · rfl
  · split
    · rfl
    · rfl

theorem remove_step_dirs_subset (srcRels : List FPath) (st : RemState)
    (e : FPath × FPath) :
    ∀ a ∈ (remove_step srcRels st e).fs.dirs, a ∈ st.fs.dirs := by
  intro a ha
  unfold remove_step at ha
  split at ha
  · exact ha
  · split at ha
    · exact (List.mem_filter.mp ha).1
    · exact ha

theorem remove_foldl_files (srcRels : List FPath) (l : List (FPath × FPath))
    (st : RemState) :
    (l.foldl (remove_step srcRels) st).fs.files = st.fs.files := by
  induction l generalizing st with
  | nil => rfl
  | cons e t ih => rw [List.foldl_cons, ih, remove_step_files]

theorem remove_foldl_dirs_subset (srcRels : List FPath)
    (l : List (FPath × FPath)) (st : RemState) :
    ∀ a ∈ (l.foldl (remove_step srcRels) st).fs.dirs, a ∈ st.fs.dirs := by
  induction l generalizing st with
  | nil => intro a ha; exact ha
  | cons e t ih =>
    intro a ha
    rw [List.foldl_cons] at ha
    exact remove_step_dirs_subset srcRels st e a (ih _ a ha)

theorem remove_foldl_removed_mono (srcRels : List FPath)
    (l : List (FPath × FPath)) (st : RemState) :
    ∀ x ∈ st.removed, x ∈ (l.foldl (remove_step srcRels) st).removed := by
  induction l generalizing st with
  | nil => intro x hx; exact hx
  | cons e t ih =>
    intro x hx
    rw [List.foldl_cons]
    apply ih
    unfold remove_step
    split
    · exact hx
    · split
      · exact List.mem_append.mpr (Or.inl hx)
      · exact hx

theorem remove_foldl_warned_mono (srcRels : List FPath)
    (l : List (FPath × FPath)) (st : RemState) :
    ∀ x ∈ st.warned, x ∈ (l.foldl (remove_step srcRels) st).warned := by
  induction l generalizing st with
  | nil => intro x hx; exact hx
  | cons e t ih =>
    intro x hx
    rw [List.foldl_cons]
    apply ih
    unfold remove_step
    split
    · exact hx
    · split
      · exact hx
      · exact List.mem_append.mpr (Or.inl hx)

theorem remove_foldl_removed_src (srcRels : List FPath)
    (l : List (FPath × FPath)) (st : RemState)
    (h : ∀ x ∈ st.removed, x.2 ∉ srcRels) :
    ∀ x ∈ (l.foldl (remove_step srcRels) st).removed, x.2 ∉ srcRels := by
  induction l generalizing st with
  | nil => exact h
  | cons e t ih =>
    rw [List.foldl_cons]
    apply ih
    intro x hx
    unfold remove_step at hx
    split at hx
    · exact h x hx
    · rename_i hcond
      rw [decide_eq_true_eq] at hcond
      split at hx
      · rcases List.mem_append.mp hx with h1 | h2
        · exact h x h1
        · rw [List.mem_singleton] at h2
          subst h2
          exact hcond
      · exact h x hx

theorem remove_foldl_dirs_retained (srcRels : List FPath)
    (l : List (FPath × FPath)) (st : RemState) (a : FPath)
    (ha : a ∈ st.fs.dirs) (hne : ∀ e ∈ l, e.1 ≠ a) :
    a ∈ (l.foldl (remove_step srcRels) st).fs.dirs := by
  induction l generalizing st with
  | nil => exact ha
  | cons e t ih =>
    rw [List.foldl_cons]
    refine ih _ ?_ (fun e' he' => hne e' (List.mem_cons_of_mem _ he'))
    unfold remove_step
    split
    · exact ha
    · split
      · refine List.mem_filter.mpr ⟨ha, ?_⟩
        simp only [Bool.not_eq_eq_eq_not, Bool.not_true, decide_eq_false_iff_not]
        intro heq
        exact hne e (List.mem_cons_self e t) heq.symm
      · exact ha

theorem remove_foldl_src_retained (srcRels : List FPath) (dst : FPath)
    (l : List (FPath × FPath)) (st : RemState) (a : FPath)
    (ha : a ∈ st.fs.dirs)
    (hrel : ∀ e ∈ l, e.2 = relOf dst e.1)
    (hsrc : relOf dst a ∈ srcRels) :
    a ∈ (l.foldl (remove_step srcRels) st).fs.dirs := by
  induction l generalizing st with
  | nil => exact ha
  | cons e t ih =>
    rw [List.foldl_cons]
    refine ih _ ?_ (fun e' he' => hrel e' (List.mem_cons_of_mem _ he'))
    unfold remove_step
    split
    · exact ha
    · rename_i hcond
      rw [decide_eq_true_eq] at hcond
      split
      · refine List.mem_filter.mpr ⟨ha, ?_⟩
        simp only [Bool.not_eq_eq_eq_not, Bool.not_true, decide_eq_false_iff_not]
        intro heq
        subst heq
        exact hcond (hrel e (List.mem_cons_self e t) ▸ hsrc)
      · exact ha

theorem remove_step_src (srcRels : List FPath) (st : RemState)
    (e : FPath × FPath) (hcond : e.2 ∈ srcRels) :
    remove_step srcRels st e = st := by
  unfold remove_step
  rw [if_pos (decide_eq_true hcond)]

theorem remove_step_not_src_empty (srcRels : List FPath) (st : RemState)
    (e : FPath × FPath) (hcond : e.2 ∉ srcRels)
    (hemp : isEmptyDir st.fs e.1 = true) :
    remove_step srcRels st e
      = { fs := { st.fs with
            dirs := st.fs.dirs.filter (fun d => !(decide (d = e.1))) },
          removed := st.removed ++ [e], warned := st.warned } := by
  unfold remove_step
  rw [decide_eq_false hcond, if_neg Bool.false_ne_true, if_pos hemp]

theorem remove_step_not_src_nonempty (srcRels : List FPath) (st : RemState)
    (e : FPath × FPath) (hcond : e.2 ∉ srcRels)
    (hemp : isEmptyDir st.fs e.1 = false) :
    remove_step srcRels st e = { st with warned := st.warned ++ [e] } := by
  unfold remove_step
  rw [decide_eq_false hcond, if_neg Bool.false_ne_true, hemp,
    if_neg Bool.false_ne_true]

theorem mem_obsolete_candidates {fs : FS} {dst : FPath} {e : FPath × FPath} :
    e ∈ obsolete_candidates fs dst ↔ e ∈ scan_directories fs dst :=
  (List.perm_insertionSort _ _).mem_iff

theorem obsolete_candidates_rel {fs : FS} {dst : FPath} {e : FPath × FPath}
    (h : e ∈ obsolete_candidates fs dst) :
    e.2 = relOf dst e.1 ∧ e.1 ∈ fs.dirs := by
  have := mem_obsolete_candidates.mp h
  obtain ⟨hmem, _, hr⟩ := mem_scan_directories.mp (show (e.1, e.2) ∈ _ from this)
  exact ⟨hr, hmem⟩

theorem scan_directories_nodup (fs : FS) (dst : FPath)
    (hnd : fs.dirs.Nodup) : (scan_directories fs dst).Nodup := by
  unfold scan_directories
  refine List.Nodup.filterMap ?_ hnd
  intro a a' b hb hb'
  have ha : a = b.1 := by
    split at hb
    · rw [Option.mem_def, Option.some.injEq] at hb
      rw [← hb]
    · exact absurd hb (by simp)
  have ha' : a' = b.1 := by
    split at hb'
    · rw [Option.mem_def, Option.some.injEq] at hb'
      rw [← hb']
    · exact absurd hb' (by simp)
  rw [ha, ha']

theorem obsolete_candidates_nodup (fs : FS) (dst : FPath)
    (hnd : fs.dirs.Nodup) : (obsolete_candidates fs dst).Nodup :=
  ((List.perm_insertionSort _ _).nodup_iff).mpr
    (scan_directories_nodup fs dst hnd)

/-- C5: the candidates of `remove_obsolete_directories` are evaluated in
non-increasing path-depth order and are exactly the destination
directory scan; a removed directory never has a source counterpart; a
destination directory whose relative path exists under source is always
retained; and a candidate without source counterpart is removed when it
is empty at its evaluation point and warned about and retained when it
is not. -/
theorem remove_obsolete_directories_spec (fs : FS) (src dst : FPath)
    (hnd : fs.dirs.Nodup) :
    List.Pairwise (fun a b : FPath × FPath => sepCount b.2 ≤ sepCount a.2)
        (obsolete_candidates fs dst)
    ∧ (obsolete_candidates fs dst).Perm (scan_directories fs dst)
    ∧ (∀ x ∈ (remove_obsolete_directories fs src dst).removed,
        x.2 ∉ src_dir_rels fs src)
    ∧ (∀ a r : FPath, (a, r) ∈ scan_directories fs dst →
        r ∈ src_dir_rels fs src →
        a ∈ (remove_obsolete_directories fs src dst).fs.dirs)
    ∧ (∀ (l₁ : List (FPath × FPath)) (e : FPath × FPath)
        (l₂ : List (FPath × FPath)),
        obsolete_candidates fs dst = l₁ ++ e :: l₂ →
        e.2 ∉ src_dir_rels fs src →
        (isEmptyDir (l₁.foldl (remove_step (src_dir_rels fs src))
            ⟨fs, [], []⟩).fs e.1 = true →
          e ∈ (remove_obsolete_directories fs src dst).removed
          ∧ e.1 ∉ (remove_obsolete_directories fs src dst).fs.dirs)
        ∧ (isEmptyDir (l₁.foldl (remove_step (src_dir_rels fs src))
            ⟨fs, [], []⟩).fs e.1 = false →
          e ∈ (remove_obsolete_directories fs src dst).warned
          ∧ e.1 ∈ (remove_obsolete_directories fs src dst).fs.dirs)) := by
  refine ⟨?_, ?_, ?_, ?_, ?_⟩
  · unfold obsolete_candidates
    haveI h1 : IsTotal (FPath × FPath)
        (fun a b => sepCount b.2 ≤ sepCount a.2) :=
      ⟨fun a b => le_total _ _⟩
    haveI h2 : IsTrans (FPath × FPath)
        (fun a b => sepCount b.2 ≤ sepCount a.2) :=
      ⟨fun a b c hab hbc => le_trans hbc hab⟩
    exact List.sorted_insertionSort _ (scan_directories fs dst)
  · exact List.perm_insertionSort _ _
  · exact remove_foldl_removed_src (src_dir_rels fs src)
      (obsolete_candidates fs dst) ⟨fs, [], []⟩
      (fun x hx => absurd hx (List.not_mem_nil x))
  · intro a r hscan hsrc
    obtain ⟨hmem, hu, hrel⟩ := mem_scan_directories.mp hscan
    refine remove_foldl_src_retained (src_dir_rels fs src) dst
      (obsolete_candidates fs dst) ⟨fs, [], []⟩ a hmem ?_ ?_
    · intro e he
      exact (obsolete_candidates_rel he).1
    · rw [← hrel]
      exact hsrc
  · intro l₁ e l₂ hdec hnot
    have hres : remove_obsolete_directories fs src dst
        = l₂.foldl (remove_step (src_dir_rels fs src))
            (remove_step (src_dir_rels fs src)
              (l₁.foldl (remove_step (src_dir_rels fs src)) ⟨fs, [], []⟩) e) := by
      unfold remove_obsolete_directories
      rw [hdec, List.foldl_append, List.foldl_cons]
    have hcond : (decide (e.2 ∈ src_dir_rels fs src)) = false :=
      decide_eq_false hnot
    have he_c : e ∈ obsolete_candidates fs dst := by
      rw [hdec]
      exact List.mem_append.mpr (Or.inr (List.mem_cons_self e l₂))
    have hcnd := obsolete_candidates_nodup fs dst hnd
    rw [hdec] at hcnd
    obtain ⟨hnd1, hnd2, hdisj⟩ := List.nodup_append.mp hcnd
    constructor
    · intro hemp
      have hstep := remove_step_not_src_empty (src_dir_rels fs src)
        (l₁.foldl (remove_step (src_dir_rels fs src)) ⟨fs, [], []⟩) e hnot hemp
      constructor
      · rw [hres, hstep]
        exact remove_foldl_removed_mono _ l₂ _ e
          (List.mem_append.mpr (Or.inr (List.mem_singleton.mpr rfl)))
      · rw [hres, hstep]
        intro hmem
        have h2 := remove_foldl_dirs_subset _ l₂ _ e.1 hmem
        rw [List.mem_filter] at h2
        simp at h2
    · intro hemp
      have hstep := remove_step_not_src_nonempty (src_dir_rels fs src)
        (l₁.foldl (remove_step (src_dir_rels fs src)) ⟨fs, [], []⟩) e hnot hemp
      constructor
      · rw [hres, hstep]
        exact remove_foldl_warned_mono _ l₂ _ e
          (List.mem_append.mpr (Or.inr (List.mem_singleton.mpr rfl)))
      · have he1 : e.1 ∈ fs.dirs := (obsolete_candidates_rel he_c).2
        have heq_of : ∀ e' : FPath × FPath, e' ∈ obsolete_candidates fs dst →
            e'.1 = e.1 → e' = e := by
          intro e' he' heq
          have h1 := (obsolete_candidates_rel he').1
          have h2 := (obsolete_candidates_rel he_c).1
          exact Prod.ext heq (by rw [h1, h2, heq])
        have hne1 : ∀ e' ∈ l₁, e'.1 ≠ e.1 := by
          intro e' he' heq
          have hmem' : e' ∈ obsolete_candidates fs dst := by
            rw [hdec]
            exact List.mem_append.mpr (Or.inl he')
          have hee : e' = e := heq_of e' hmem' heq
          subst hee
          exact hdisj he' (List.mem_cons_self _ _)
        have hne2 : ∀ e' ∈ l₂, e'.1 ≠ e.1 := by
          intro e' he' heq
          have hmem' : e' ∈ obsolete_candidates fs dst := by
            rw [hdec]
            exact List.mem_append.mpr (Or.inr (List.mem_cons_of_mem _ he'))
          have hee : e' = e := heq_of e' hmem' heq
          subst hee
          exact (List.nodup_cons.mp hnd2).1 he'
        have hst1 : e.1 ∈ (l₁.foldl (remove_step (src_dir_rels fs src))
            ⟨fs, [], []⟩).fs.dirs :=
          remove_foldl_dirs_retained _ l₁ _ e.1 he1 hne1
        rw [hres, hstep]
        exact remove_foldl_dirs_retained _ l₂ _ e.1 hst1 hne2

/-- Witness for C5 on `fsC`: the empty obsolete directory is the sole
candidate, gets removed, and is absent from the final directory list. -/
theorem remove_obsolete_directories_spec_witness :
    ((["d", "old"], [("old" : String)])
        ∈ (remove_obsolete_directories fsC ["s"] ["d"]).removed)
    ∧ ["d", "old"] ∉ (remove_obsolete_directories fsC ["s"] ["d"]).fs.dirs :=
  ((remove_obsolete_directories_spec fsC ["s"] ["d"] (by decide)).2.2.2.2
    [] (["d", "old"], ["old"]) [] (by decide) (by decide)).1 (by decide)

/- ### Lookup, eraseKey and single-operation lemmas -/

theorem getFile_cons (e : FPath × FSFile) (t : List (FPath × FSFile))
    (q : FPath) :
    getFile (e :: t) q = if e.1 = q then some e.2 else getFile t q := rfl

theorem getFile_mem {l : List (FPath × FSFile)} {p : FPath} {f : FSFile}
    (h : getFile l p = some f) : (p, f) ∈ l := by
  induction l with
  | nil => exact absurd h (by simp [getFile])
  | cons e t ih =>
    rw [getFile_cons] at h
    split at h
    · rename_i heq
      rw [Option.some.injEq] at h
      exact List.mem_cons.mpr (Or.inl (Prod.ext heq h).symm)
    · exact List.mem_cons_of_mem _ (ih h)

theorem mem_getFile {l : List (FPath × FSFile)} {p : FPath} {f : FSFile}
    (hnd : (l.map (fun e => e.1)).Nodup) (h : (p, f) ∈ l) :
    getFile l p = some f := by
  induction l with
  | nil => exact absurd h (List.not_mem_nil _)
  | cons e t ih =>
    rw [List.map_cons, List.nodup_cons] at hnd
    rcases List.mem_cons.mp h with heq | hmem
    · rw [← heq, getFile_cons, if_pos rfl]
    · rw [getFile_cons]
      split
      · rename_i heq
        exact absurd (heq ▸ List.mem_map.mpr ⟨(p, f), hmem, rfl⟩) hnd.1
      · exact ih hnd.2 hmem

theorem eraseKey_sublist (p : FPath) (l : List (FPath × FSFile)) :
    (eraseKey p l).Sublist l := by
  induction l with
  | nil => exact List.Sublist.refl _
  | cons e t ih =>
    unfold eraseKey
    split
    · exact ih.cons _
    · exact ih.cons₂ _

theorem getFile_eraseKey_self (p : FPath) (l : List (FPath × FSFile)) :
    getFile (eraseKey p l) p = none := by
  induction l with
  | nil => rfl
  | cons e t ih =>
    unfold eraseKey
    split
    · exact ih
    · rename_i hne
      unfold getFile
      rw [if_neg hne]
      exact ih

theorem getFile_eraseKey_ne {p q : FPath} (hne : q ≠ p)
    (l : List (FPath × FSFile)) :
    getFile (eraseKey p l) q = getFile l q := by
  induction l with
  | nil => rfl
  | cons e t ih =>
    unfold eraseKey
    split
    · rename_i heq
      rw [ih, getFile_cons, if_neg (fun hh => hne (heq.symm.trans hh).symm)]
    · rw [getFile_cons, getFile_cons, ih]

theorem not_mem_keys_eraseKey (p : FPath) (l : List (FPath × FSFile)) :
    p ∉ (eraseKey p l).map (fun e => e.1) := by
  induction l with
  | nil => simp [eraseKey]
  | cons e t ih =>
    unfold eraseKey
    split
    · exact ih
    · rename_i hne
      rw [List.map_cons]
      intro h
      rcases List.mem_cons.mp h with heq | hm
      · exact hne heq.symm
      · exact ih hm

theorem setFile_keys_nodup {fs : FS} (p : FPath) (f : FSFile)
    (hnd : (fs.files.map (fun e => e.1)).Nodup) :
    ((setFile fs p f).files.map (fun e => e.1)).Nodup := by
  unfold setFile
  rw [List.map_cons, List.nodup_cons]
  exact ⟨not_mem_keys_eraseKey p fs.files,
    ((eraseKey_sublist p fs.files).map _).nodup hnd⟩

theorem setFile_lookup (fs : FS) (p : FPath) (f : FSFile) (q : FPath) :
    (setFile fs p f).lookupFile q
      = if q = p then some f else fs.lookupFile q := by
  show getFile ((p, f) :: eraseKey p fs.files) q = _
  rw [getFile_cons]
  by_cases h : q = p
  · rw [if_pos h.symm, if_pos h]
  · rw [if_neg (fun hh => h hh.symm), if_neg h]
    exact getFile_eraseKey_ne h fs.files

theorem setFile_dirs (fs : FS) (p : FPath) (f : FSFile) :
    (setFile fs p f).dirs = fs.dirs := rfl

theorem delete_file_lookup (fs : FS) (p q : FPath) :
    (delete_file fs p).1.lookupFile q
      = if q = p then none else fs.lookupFile q := by
  unfold delete_file
  split
  · show FS.lookupFile ⟨eraseKey p fs.files, fs.dirs, fs.dirMtime⟩ q = _
    unfold FS.lookupFile
    split
    · rename_i heq
      rw [heq]
      exact getFile_eraseKey_self p fs.files
    · rename_i hne
      exact getFile_eraseKey_ne hne fs.files
  · rename_i hno
    split
    · rename_i heq
      rw [heq]
      exact Option.not_isSome_iff_eq_none.mp hno
    · rfl

theorem delete_file_dirs (fs : FS) (p : FPath) :
    (delete_file fs p).1.dirs = fs.dirs := by
  unfold delete_file
  split
  · rfl
  · rfl

theorem delete_file_keys_nodup {fs : FS} (p : FPath)
    (hnd : (fs.files.map (fun e => e.1)).Nodup) :
    ((delete_file fs p).1.files.map (fun e => e.1)).Nodup := by
  unfold delete_file
  split
  · exact ((eraseKey_sublist p fs.files).map _).nodup hnd
  · exact hnd

theorem makedirsAux_files (fs : FS) (l : List FPath) :
    (makedirsAux fs l).1.files = fs.files := by
  induction l generalizing fs with
  | nil => rfl
  | cons q qs ih =>
    unfold makedirsAux
    split
    · exact ih fs
    · split
      · rfl
      · exact ih _

theorem makedirsAux_dirs_mono (fs : FS) (l : List FPath) :
    ∀ d ∈ fs.dirs, d ∈ (makedirsAux fs l).1.dirs := by
  induction l generalizing fs with
  | nil => intro d hd; exact hd
  | cons q qs ih =>
    intro d hd
    unfold makedirsAux
    split
    · exact ih fs d hd
    · split
      · exact hd
      · exact ih _ d (List.mem_cons_of_mem _ hd)

theorem makedirsAux_ok_of (fs : FS) (l : List FPath)
    (h : ∀ q ∈ l, q ∈ fs.dirs ∨ getFile fs.files q = none) :
    (makedirsAux fs l).2.2 = true := by
  induction l generalizing fs with
  | nil => rfl
  | cons q qs ih =>
    unfold makedirsAux
    split
    · exact ih fs (fun q' hq' => h q' (List.mem_cons_of_mem _ hq'))
    · rename_i hnd
      split
      · rename_i hsome
        rcases h q (List.mem_cons_self q qs) with hd | hn
        · exact absurd hd hnd
        · rw [show getFile fs.files q = fs.lookupFile q from rfl] at hn
          rw [hn] at hsome
          exact absurd hsome (by simp)
      · refine ih _ (fun q' hq' => ?_)
        rcases h q' (List.mem_cons_of_mem _ hq') with hd | hn
        · exact Or.inl (List.mem_cons_of_mem _ hd)
        · exact Or.inr hn

theorem makedirsAux_cons (fs : FS) (q : FPath) (qs : List FPath) :
    makedirsAux fs (q :: qs)
      = if q ∈ fs.dirs then makedirsAux fs qs
        else if (fs.lookupFile q).isSome then (fs, [], false)
        else
          ((makedirsAux { fs with dirs := q :: fs.dirs } qs).1,
            Ev.mkdir q :: (makedirsAux { fs with dirs := q :: fs.dirs } qs).2.1,
            (makedirsAux { fs with dirs := q :: fs.dirs } qs).2.2) := rfl

theorem makedirsAux_ok_mem (fs : FS) (l : List FPath)
    (hok : (makedirsAux fs l).2.2 = true) :
    ∀ q ∈ l, q ∈ (makedirsAux fs l).1.dirs := by
  induction l generalizing fs with
  | nil => intro q hq; exact absurd hq (List.not_mem_nil q)
  | cons q0 qs ih =>
    intro q hq
    rw [makedirsAux_cons] at hok ⊢
    by_cases hd : q0 ∈ fs.dirs
    · rw [if_pos hd] at hok ⊢
      rcases List.mem_cons.mp hq with rfl | hm
      · exact makedirsAux_dirs_mono fs qs q hd
      · exact ih fs hok q hm
    · rw [if_neg hd] at hok ⊢
      by_cases hs : (fs.lookupFile q0).isSome
      · rw [if_pos hs] at hok
        exact absurd hok (by simp)
      · rw [if_neg hs] at hok ⊢
        rcases List.mem_cons.mp hq with rfl | hm
        · exact makedirsAux_dirs_mono _ qs q (List.mem_cons_self _ _)
        · exact ih _ hok q hm

theorem mem_prefixesOf {p q : FPath} :
    q ∈ prefixesOf p ↔ ∃ i, i < p.length ∧ q = p.take (i + 1) := by
  unfold prefixesOf
  rw [List.mem_map]
  constructor
  · rintro ⟨i, hi, rfl⟩
    exact ⟨i, List.mem_range.mp hi, rfl⟩
  · rintro ⟨i, hi, rfl⟩
    exact ⟨i, List.mem_range.mpr hi, rfl⟩

theorem prefixesOf_length_le {p q : FPath} (h : q ∈ prefixesOf p) :
    q.length ≤ p.length := by
  obtain ⟨i, hi, rfl⟩ := mem_prefixesOf.mp h
  rw [List.length_take]
  omega

theorem makedirsAux_dirs_new (fs : FS) (l : List FPath) :
    ∀ q ∈ (makedirsAux fs l).1.dirs, q ∈ fs.dirs ∨ q ∈ l := by
  induction l generalizing fs with
  | nil => intro q hq; exact Or.inl hq
  | cons x xs ih =>
    intro q hq
    rw [makedirsAux_cons] at hq
    by_cases hd : x ∈ fs.dirs
    · rw [if_pos hd] at hq
      rcases ih fs q hq with h | h
      · exact Or.inl h
      · exact Or.inr (List.mem_cons_of_mem _ h)
    · rw [if_neg hd] at hq
      by_cases hs : (fs.lookupFile x).isSome
      · rw [if_pos hs] at hq
        exact Or.inl hq
      · rw [if_neg hs] at hq
        rcases ih _ q hq with h | h
        · rcases List.mem_cons.mp h with rfl | hm
          · exact Or.inr (List.mem_cons_self _ _)
          · exact Or.inl hm
        · exact Or.inr (List.mem_cons_of_mem _ h)

theorem makedirs_dirs_new (fs : FS) (p : FPath) :
    ∀ q ∈ (makedirs fs p).1.dirs, q ∈ fs.dirs ∨ q ∈ prefixesOf p :=
  makedirsAux_dirs_new fs (prefixesOf p)

theorem target_not_dir_makedirs {fs : FS} {d : FPath} (hne : d ≠ [])
    (hd : d ∉ fs.dirs) : d ∉ (makedirs fs d.dropLast).1.dirs := by
  intro hmem
  rcases makedirs_dirs_new fs d.dropLast d hmem with h | h
  · exact hd h
  · have hlen := prefixesOf_length_le h
    rw [List.length_dropLast] at hlen
    have := List.length_pos.mpr hne
    omega

/- ### Separation, congruence and scan nodup lemmas -/

theorem sep_append_ne {src dst : FPath}
    (hsep : src.isPrefixOf dst = false ∧ dst.isPrefixOf src = false)
    (x y : FPath) : src ++ x ≠ dst ++ y := by
  intro heq
  have h1 : src <+: dst ++ y := heq ▸ List.prefix_append src x
  have h2 : dst <+: dst ++ y := List.prefix_append dst y
  rcases List.prefix_or_prefix_of_prefix h1 h2 with h | h
  · rw [← List.isPrefixOf_iff_prefix, hsep.1] at h
    exact Bool.false_ne_true h
  · rw [← List.isPrefixOf_iff_prefix, hsep.2] at h
    exact Bool.false_ne_true h

theorem scan_files_congr {fs fs' : FS} (h : fs.files = fs'.files)
    (root : FPath) (flt : Bool) :
    scan_files fs root flt = scan_files fs' root flt := by
  unfold scan_files
  rw [h]

theorem src_rel_paths_congr {fs fs' : FS} (h : fs.files = fs'.files)
    (src : FPath) : src_rel_paths fs src = src_rel_paths fs' src := by
  unfold src_rel_paths
  rw [scan_files_congr h]

theorem scan_files_keys_sublist (fs : FS) (root : FPath) (flt : Bool) :
    ((scan_files fs root flt).map (fun e => e.1)).Sublist
      (fs.files.map (fun e => e.1)) := by
  unfold scan_files
  induction fs.files with
  | nil => exact List.Sublist.refl _
  | cons e t ih =>
    rw [List.filterMap_cons, List.map_cons]
    split
    · exact ih.cons _
    · rename_i b heq
      have hb : b.1 = e.1 := by
        split at heq
        · split at heq
          · exact absurd heq (by simp)
          · rw [Option.some.injEq] at heq
            rw [← heq]
        · exact absurd heq (by simp)
      rw [List.map_cons, hb]
      exact ih.cons₂ _

theorem scan_files_keys_nodup {fs : FS} (root : FPath) (flt : Bool)
    (hnd : (fs.files.map (fun e => e.1)).Nodup) :
    ((scan_files fs root flt).map (fun e => e.1)).Nodup :=
  (scan_files_keys_sublist fs root flt).nodup hnd

theorem scan_files_rels_nodup {fs : FS} (root : FPath) (flt : Bool)
    (hnd : (fs.files.map (fun e => e.1)).Nodup) :
    ((scan_files fs root flt).map (fun e => e.2)).Nodup := by
  refine List.Nodup.map_on ?_
    (List.Nodup.of_map _ (scan_files_keys_nodup root flt hnd))
  intro x hx y hy hxy
  obtain ⟨hxne, hxs⟩ := copy_task_shape (show (x.1, x.2) ∈ _ from hx)
  obtain ⟨hyne, hys⟩ := copy_task_shape (show (y.1, y.2) ∈ _ from hy)
  have h1 : x.1 = y.1 := by rw [hxs, hys, hxy]
  exact Prod.ext h1 hxy

theorem copy_tasks_sublist (fs : FS) (src dst : FPath) :
    (copy_tasks fs src dst).Sublist (scan_files fs src true) :=
  List.filter_sublist _

theorem copy_tasks_rels_nodup {fs : FS} (src dst : FPath)
    (hnd : (fs.files.map (fun e => e.1)).Nodup) :
    ((copy_tasks fs src dst).map (fun e => e.2)).Nodup :=
  (((copy_tasks_sublist fs src dst).map _)).nodup
    (scan_files_rels_nodup src true hnd)

/- ### Frame lemmas for the phase pipeline -/

theorem makedirs_files (fs : FS) (p : FPath) :
    (makedirs fs p).1.files = fs.files :=
  makedirsAux_files fs (prefixesOf p)

theorem makedirs_lookup (fs : FS) (p q : FPath) :
    (makedirs fs p).1.lookupFile q = fs.lookupFile q := by
  unfold FS.lookupFile
  rw [makedirs_files]

theorem makedirs_dirs_mono (fs : FS) (p : FPath) :
    ∀ d ∈ fs.dirs, d ∈ (makedirs fs p).1.dirs :=
  makedirsAux_dirs_mono fs (prefixesOf p)

theorem makedirs_ok_prefixes {fs : FS} {p : FPath}
    (hok : (makedirs fs p).2.2 = true) :
    ∀ k, 0 < k → k ≤ p.length → p.take k ∈ (makedirs fs p).1.dirs := by
  intro k h0 hk
  refine makedirsAux_ok_mem fs (prefixesOf p) hok (p.take k) ?_
  unfold prefixesOf
  refine List.mem_map.mpr ⟨k - 1, List.mem_range.mpr (by omega), ?_⟩
  congr 1
  omega

theorem sync_directories_aux_files (dst : FPath) (fs : FS)
    (l : List (FPath × FPath)) :
    (sync_directories_aux dst fs l).1.files = fs.files := by
  induction l generalizing fs with
  | nil => rfl
  | cons e t ih =>
    unfold sync_directories_aux
    split
    · exact ih fs
    · split
      · rw [ih, makedirs_files]
      · exact makedirs_files fs _

theorem sync_directories_aux_dirs_mono (dst : FPath) (fs : FS)
    (l : List (FPath × FPath)) :
    ∀ d ∈ fs.dirs, d ∈ (sync_directories_aux dst fs l).1.dirs := by
  induction l generalizing fs with
  | nil => intro d hd; exact hd
  | cons e t ih =>
    intro d hd
    unfold sync_directories_aux
    split
    · exact ih fs d hd
    · split
      · exact ih _ d (makedirs_dirs_mono fs _ d hd)
      · exact makedirs_dirs_mono fs _ d hd

theorem plan_state_files (fs : FS) (src dst : FPath) :
    (plan_state fs src dst).files = fs.files := by
  unfold plan_state sync_directories
  rw [sync_directories_aux_files, makedirs_files]

theorem sync_directories_aux_cons (dst : FPath) (fs : FS) (e : FPath × FPath)
    (t : List (FPath × FPath)) :
    sync_directories_aux dst fs (e :: t)
      = if pathExists fs (dst ++ e.2) then sync_directories_aux dst fs t
        else if (makedirs fs (dst ++ e.2)).2.2 then
          ((sync_directories_aux dst (makedirs fs (dst ++ e.2)).1 t).1,
            (makedirs fs (dst ++ e.2)).2.1
              ++ (sync_directories_aux dst (makedirs fs (dst ++ e.2)).1 t).2.1,
            (sync_directories_aux dst (makedirs fs (dst ++ e.2)).1 t).2.2)
        else ((makedirs fs (dst ++ e.2)).1,
          (makedirs fs (dst ++ e.2)).2.1, false) := rfl

theorem sync_directories_aux_dirs_new (dst : FPath) (fs : FS)
    (l : List (FPath × FPath)) :
    ∀ q ∈ (sync_directories_aux dst fs l).1.dirs,
      q ∈ fs.dirs ∨ ∃ e ∈ l, q ∈ prefixesOf (dst ++ e.2) := by
  induction l generalizing fs with
  | nil => intro q hq; exact Or.inl hq
  | cons x t ih =>
    intro q hq
    rw [sync_directories_aux_cons] at hq
    by_cases hp : pathExists fs (dst ++ x.2)
    · rw [if_pos hp] at hq
      rcases ih fs q hq with h | ⟨e, he, hpre⟩
      · exact Or.inl h
      · exact Or.inr ⟨e, List.mem_cons_of_mem _ he, hpre⟩
    · rw [if_neg hp] at hq
      by_cases hmk : (makedirs fs (dst ++ x.2)).2.2
      · rw [if_pos hmk] at hq
        rcases ih _ q hq with h | ⟨e, he, hpre⟩
        · rcases makedirs_dirs_new fs (dst ++ x.2) q h with h2 | h2
          · exact Or.inl h2
          · exact Or.inr ⟨x, List.mem_cons_self _ _, h2⟩
        · exact Or.inr ⟨e, List.mem_cons_of_mem _ he, hpre⟩
      · rw [if_neg hmk] at hq
        rcases makedirs_dirs_new fs (dst ++ x.2) q hq with h2 | h2
        · exact Or.inl h2
        · exact Or.inr ⟨x, List.mem_cons_self _ _, h2⟩

theorem plan_state_dirs_char (fs : FS) (src dst : FPath) :
    ∀ q ∈ (plan_state fs src dst).dirs,
      q ∈ fs.dirs ∨ q ∈ prefixesOf dst
        ∨ ∃ e ∈ scan_directories (makedirs fs dst).1 src,
            q ∈ prefixesOf (dst ++ e.2) := by
  intro q hq
  unfold plan_state sync_directories at hq
  rcases sync_directories_aux_dirs_new dst _ _ q hq with h | ⟨e, he, hpre⟩
  · rcases makedirs_dirs_new fs dst q h with h2 | h2
    · exact Or.inl h2
    · exact Or.inr (Or.inl h2)
  · exact Or.inr (Or.inr ⟨e, he, hpre⟩)

theorem run_deletes_files_dirs (l : List FPath) (fs : FS) :
    (run_deletes fs l).1.dirs = fs.dirs := by
  induction l generalizing fs with
  | nil => rfl
  | cons p ps ih =>
    unfold run_deletes
    rw [ih, delete_file_dirs]

theorem run_deletes_lookup_not_mem (l : List FPath) (fs : FS) (q : FPath)
    (h : q ∉ l) :
    (run_deletes fs l).1.lookupFile q = fs.lookupFile q := by
  induction l generalizing fs with
  | nil => rfl
  | cons p ps ih =>
    unfold run_deletes
    rw [ih _ (fun hm => h (List.mem_cons_of_mem _ hm)), delete_file_lookup,
      if_neg (fun he => h (by rw [he]; exact List.mem_cons_self p ps))]

theorem run_deletes_lookup_none (l : List FPath) (fs : FS) (q : FPath)
    (h : fs.lookupFile q = none) :
    (run_deletes fs l).1.lookupFile q = none := by
  induction l generalizing fs with
  | nil => exact h
  | cons p ps ih =>
    unfold run_deletes
    refine ih _ ?_
    rw [delete_file_lookup]
    split
    · rfl
    · exact h

theorem run_deletes_lookup_mem (l : List FPath) (fs : FS) (q : FPath) :
    q ∈ l → (run_deletes fs l).1.lookupFile q = none := by
  induction l generalizing fs with
  | nil => intro h; exact absurd h (List.not_mem_nil q)
  | cons p ps ih =>
    intro h
    unfold run_deletes
    rcases List.mem_cons.mp h with rfl | hm
    · by_cases hmem : q ∈ ps
      · exact ih _ hmem
      · rw [run_deletes_lookup_not_mem ps _ q hmem, delete_file_lookup,
          if_pos rfl]
    · exact ih _ hm

theorem run_deletes_keys_nodup (l : List FPath) (fs : FS)
    (hnd : (fs.files.map (fun e => e.1)).Nodup) :
    ((run_deletes fs l).1.files.map (fun e => e.1)).Nodup := by
  induction l generalizing fs with
  | nil => exact hnd
  | cons p ps ih =>
    unfold run_deletes
    exact ih _ (delete_file_keys_nodup p hnd)

/- ### Copy-phase lemmas -/

theorem copy_file_lookup_ne (fs : FS) (p d q : FPath)
    (hd : d ∉ (makedirs fs d.dropLast).1.dirs) (hne : d ≠ q) :
    (copy_file fs p d).1.lookupFile q = fs.lookupFile q := by
  unfold copy_file
  split
  · split
    · exact makedirs_lookup fs _ q
    · rename_i s hs
      show (setFile (makedirs fs d.dropLast).1 d s).lookupFile q = _
      rw [setFile_lookup, if_neg (fun h => hne h.symm), makedirs_lookup]
  · exact makedirs_lookup fs _ q

theorem copy_file_dirs_mono (fs : FS) (p d : FPath) :
    ∀ x ∈ fs.dirs, x ∈ (copy_file fs p d).1.dirs := by
  unfold copy_file
  split
  · split
    · exact makedirs_dirs_mono fs _
    · rename_i s hs
      split
      · split
        · exact makedirs_dirs_mono fs _
        · intro x hx
          show x ∈ (setFile (makedirs fs d.dropLast).1
            (d ++ [basename p]) s).dirs
          rw [setFile_dirs]
          exact makedirs_dirs_mono fs _ x hx
      · intro x hx
        show x ∈ (setFile (makedirs fs d.dropLast).1 d s).dirs
        rw [setFile_dirs]
        exact makedirs_dirs_mono fs _ x hx
  · exact makedirs_dirs_mono fs _

theorem copy_file_dirs_new (fs : FS) (p d : FPath) :
    ∀ x ∈ (copy_file fs p d).1.dirs,
      x ∈ fs.dirs ∨ x ∈ prefixesOf d.dropLast := by
  unfold copy_file
  split
  · split
    · exact makedirs_dirs_new fs _
    · rename_i s hs
      split
      · split
        · exact makedirs_dirs_new fs _
        · intro x hx
          rw [show (setFile (makedirs fs d.dropLast).1
              (d ++ [basename p]) s).dirs
            = (makedirs fs d.dropLast).1.dirs from rfl] at hx
          exact makedirs_dirs_new fs _ x hx
      · intro x hx
        rw [show (setFile (makedirs fs d.dropLast).1 d s).dirs
            = (makedirs fs d.dropLast).1.dirs from rfl] at hx
        exact makedirs_dirs_new fs _ x hx
  · exact makedirs_dirs_new fs _

theorem copy_file_keys_nodup {fs : FS} (p d : FPath)
    (hnd : (fs.files.map (fun e => e.1)).Nodup) :
    ((copy_file fs p d).1.files.map (fun e => e.1)).Nodup := by
  have hmk : ((makedirs fs d.dropLast).1.files.map (fun e => e.1)).Nodup := by
    rw [makedirs_files]
    exact hnd
  unfold copy_file
  split
  · split
    · exact hmk
    · rename_i s hs
      split
      · split
        · exact hmk
        · exact setFile_keys_nodup (d ++ [basename p]) s hmk
      · exact setFile_keys_nodup d s hmk
  · exact hmk

theorem dropLast_append {r : FPath} (dst : FPath) (h : r ≠ []) :
    (dst ++ r).dropLast = dst ++ r.dropLast := by
  rw [List.dropLast_eq_take, List.dropLast_eq_take, List.length_append]
  have h1 : dst.length + r.length - 1 = dst.length + (r.length - 1) := by
    have := List.length_pos.mpr h
    omega
  rw [h1, List.take_append]

theorem copy_file_write (fs : FS) (p d : FPath) (v : FSFile)
    (hmk : (makedirs fs d.dropLast).2.2 = true)
    (hv : fs.lookupFile p = some v)
    (hd : d ∉ (makedirs fs d.dropLast).1.dirs) :
    copy_file fs p d
      = (setFile (makedirs fs d.dropLast).1 d v,
        (makedirs fs d.dropLast).2.1 ++ [Ev.copy p d]) := by
  have hv' : (makedirs fs d.dropLast).1.lookupFile p = some v := by
    rw [makedirs_lookup]
    exact hv
  unfold copy_file
  rw [if_pos hmk]
  split
  · rename_i hnone
    rw [hv'] at hnone
    exact absurd hnone (by simp)
  · rename_i s hs
    rw [hv', Option.some.injEq] at hs
    subst hs
    rw [if_neg hd]

theorem copy_file_target_dirs_pres (dst : FPath) (R : List FPath) (fs : FS)
    (t : FPath × FPath)
    (hR1 : ∀ r ∈ R, r ≠ [])
    (hR2 : ∀ r ∈ R, ∀ r' ∈ R, r.isPrefixOf r' = true → r = r')
    (htR : t.2 ∈ R)
    (hI3 : ∀ r ∈ R, dst ++ r ∉ fs.dirs) :
    ∀ r ∈ R, dst ++ r ∉ (copy_file fs t.1 (dst ++ t.2)).1.dirs := by
  intro r hr hmem
  rcases copy_file_dirs_new fs t.1 (dst ++ t.2) _ hmem with h | h
  · exact hI3 r hr h
  · rw [dropLast_append dst (hR1 t.2 htR)] at h
    obtain ⟨i, hi, heq⟩ := mem_prefixesOf.mp h
    rw [List.length_append, List.length_dropLast] at hi
    rcases le_or_lt (i + 1) dst.length with hle | hlt
    · have h1 := congrArg List.length heq
      rw [List.length_append, List.length_take, List.length_append,
        List.length_dropLast] at h1
      have hrne := List.length_pos.mpr (hR1 r hr)
      omega
    · rw [List.take_append_eq_append_take,
        List.take_of_length_le (by omega)] at heq
      have hr2 : r = t.2.dropLast.take (i + 1 - dst.length) :=
        List.append_cancel_left heq
      have hdl : t.2.dropLast.take (i + 1 - dst.length)
          = t.2.take (i + 1 - dst.length) := by
        rw [List.dropLast_eq_take, List.take_take]
        congr 1
        omega
      rw [hdl] at hr2
      have hpre : r.isPrefixOf t.2 = true := by
        rw [List.isPrefixOf_iff_prefix, hr2]
        exact List.take_prefix _ _
      have heqr := hR2 r hr t.2 htR hpre
      have hlen := congrArg List.length hr2
      rw [List.length_take] at hlen
      rw [heqr] at hlen
      have htlen := List.length_pos.mpr (hR1 t.2 htR)
      omega

theorem copy_file_step (dst : FPath) (R : List FPath) (fs : FS)
    (t : FPath × FPath) (v : FSFile)
    (hR1 : ∀ r ∈ R, r ≠ [])
    (hR2 : ∀ r ∈ R, ∀ r' ∈ R, r.isPrefixOf r' = true → r = r')
    (htR : t.2 ∈ R)
    (htd : dst ++ t.2 ∉ fs.dirs)
    (hI1 : ∀ k, 0 < k → k ≤ dst.length → dst.take k ∈ fs.dirs)
    (hI2 : ∀ r ∈ R, ∀ j, 0 < j → j < r.length →
      fs.lookupFile (dst ++ r.take j) = none)
    (hsrc : fs.lookupFile t.1 = some v) :
    (copy_file fs t.1 (dst ++ t.2)).1.lookupFile (dst ++ t.2) = some v
    ∧ (∀ r ∈ R, ∀ j, 0 < j → j < r.length →
        (copy_file fs t.1 (dst ++ t.2)).1.lookupFile (dst ++ r.take j) = none) := by
  have htne : t.2 ≠ [] := hR1 t.2 htR
  have htlen : 0 < t.2.length := List.length_pos.mpr htne
  have hall : ∀ q ∈ prefixesOf (dst ++ t.2.dropLast),
      q ∈ fs.dirs ∨ getFile fs.files q = none := by
    intro q hq
    obtain ⟨i, hi, rfl⟩ := List.mem_map.mp hq
    rw [List.mem_range, List.length_append] at hi
    rcases le_or_lt (i + 1) dst.length with hle | hlt
    · left
      rw [List.take_append_eq_append_take, Nat.sub_eq_zero_of_le hle,
        List.take_zero, List.append_nil]
      exact hI1 (i + 1) (Nat.succ_pos i) hle
    · right
      rw [List.take_append_eq_append_take,
        List.take_of_length_le (by omega)]
      have hdl : t.2.dropLast.take (i + 1 - dst.length)
          = t.2.take (i + 1 - dst.length) := by
        rw [List.dropLast_eq_take, List.take_take]
        congr 1
        rw [List.length_dropLast] at hi
        omega
      rw [hdl]
      rw [List.length_dropLast] at hi
      exact hI2 t.2 htR (i + 1 - dst.length) (by omega) (by omega)
  have hmk_ok : (makedirs fs (dst ++ t.2.dropLast)).2.2 = true :=
    makedirsAux_ok_of fs _ hall
  have hne0 : dst ++ t.2 ≠ [] := by
    intro h
    rw [List.append_eq_nil] at h
    exact htne h.2
  have hnd2 := target_not_dir_makedirs hne0 htd
  have hmk_ok2 : (makedirs fs (dst ++ t.2).dropLast).2.2 = true := by
    rw [dropLast_append dst htne]
    exact hmk_ok
  have hwrite := copy_file_write fs t.1 (dst ++ t.2) v hmk_ok2 hsrc hnd2
  constructor
  · rw [hwrite]
    show (setFile (makedirs fs (dst ++ t.2).dropLast).1
        (dst ++ t.2) v).lookupFile (dst ++ t.2) = some v
    rw [setFile_lookup, if_pos rfl]
  · intro r hr j hj0 hjlen
    rw [hwrite]
    show (setFile (makedirs fs (dst ++ t.2).dropLast).1
        (dst ++ t.2) v).lookupFile (dst ++ r.take j) = none
    rw [setFile_lookup]
    rw [if_neg ?_]
    · rw [makedirs_lookup]
      exact hI2 r hr j hj0 hjlen
    · intro heq
      have h1 : r.take j = t.2 := List.append_cancel_left heq
      have h2 : t.2.isPrefixOf r = true := by
        rw [List.isPrefixOf_iff_prefix, ← h1]
        exact List.take_prefix j r
      have h3 : t.2 = r := hR2 t.2 htR r hr h2
      have h4 := congrArg List.length h1
      rw [List.length_take] at h4
      rw [h3] at h4
      omega

theorem run_copies_fst_cons (dst : FPath) (fs : FS) (t : FPath × FPath)
    (ts : List (FPath × FPath)) :
    (run_copies dst fs (t :: ts)).1
      = (run_copies dst (copy_file fs t.1 (dst ++ t.2)).1 ts).1 := rfl

theorem run_copies_effect (src dst : FPath) (R : List FPath)
    (l : List (FPath × FPath)) (fs : FS)
    (hsep : src.isPrefixOf dst = false ∧ dst.isPrefixOf src = false)
    (hR1 : ∀ r ∈ R, r ≠ [])
    (hR2 : ∀ r ∈ R, ∀ r' ∈ R, r.isPrefixOf r' = true → r = r')
    (hl : ∀ t ∈ l, t.2 ∈ R ∧ t.1 = src ++ t.2)
    (hrels : (l.map (fun t => t.2)).Nodup)
    (hI1 : ∀ k, 0 < k → k ≤ dst.length → dst.take k ∈ fs.dirs)
    (hI2 : ∀ r ∈ R, ∀ j, 0 < j → j < r.length →
      fs.lookupFile (dst ++ r.take j) = none)
    (hI3 : ∀ r ∈ R, dst ++ r ∉ fs.dirs)
    (hsrc : ∀ t ∈ l, ∃ v, fs.lookupFile t.1 = some v) :
    (∀ q, (∀ t ∈ l, dst ++ t.2 ≠ q) →
      (run_copies dst fs l).1.lookupFile q = fs.lookupFile q)
    ∧ (∀ t ∈ l, (run_copies dst fs l).1.lookupFile (dst ++ t.2)
        = fs.lookupFile t.1)
    ∧ (∀ d ∈ fs.dirs, d ∈ (run_copies dst fs l).1.dirs)
    ∧ ((fs.files.map (fun e => e.1)).Nodup →
        ((run_copies dst fs l).1.files.map (fun e => e.1)).Nodup) := by
  induction l generalizing fs with
  | nil =>
    exact ⟨fun q _ => rfl, fun t ht => absurd ht (List.not_mem_nil t),
      fun d hd => hd, fun h => h⟩
  | cons t ts ih =>
    obtain ⟨v, hv⟩ := hsrc t (List.mem_cons_self t ts)
    obtain ⟨htR, htshape⟩ := hl t (List.mem_cons_self t ts)
    have hstep := copy_file_step dst R fs t v hR1 hR2 htR (hI3 t.2 htR)
      hI1 hI2 hv
    have hne0 : dst ++ t.2 ≠ [] := by
      intro h
      rw [List.append_eq_nil] at h
      exact hR1 t.2 htR h.2
    have htdir := target_not_dir_makedirs hne0 (hI3 t.2 htR)
    have hlook_pres : ∀ q, dst ++ t.2 ≠ q →
        (copy_file fs t.1 (dst ++ t.2)).1.lookupFile q = fs.lookupFile q :=
      fun q hq => copy_file_lookup_ne fs t.1 (dst ++ t.2) q htdir hq
    have hI3' : ∀ r ∈ R, dst ++ r ∉ (copy_file fs t.1 (dst ++ t.2)).1.dirs :=
      copy_file_target_dirs_pres dst R fs t hR1 hR2 htR hI3
    have hI1' : ∀ k, 0 < k → k ≤ dst.length →
        dst.take k ∈ (copy_file fs t.1 (dst ++ t.2)).1.dirs :=
      fun k h0 hk => copy_file_dirs_mono fs t.1 (dst ++ t.2) _ (hI1 k h0 hk)
    have hsrc' : ∀ t' ∈ ts, ∃ v',
        (copy_file fs t.1 (dst ++ t.2)).1.lookupFile t'.1 = some v' := by
      intro t' ht'
      obtain ⟨v', hv'⟩ := hsrc t' (List.mem_cons_of_mem _ ht')
      obtain ⟨_, hshape'⟩ := hl t' (List.mem_cons_of_mem _ ht')
      refine ⟨v', ?_⟩
      rw [hlook_pres t'.1 ?_]
      · exact hv'
      · intro heq
        refine sep_append_ne hsep t'.2 t.2 ?_
        rw [← hshape']
        exact heq.symm
    have hrels' : (ts.map (fun t => t.2)).Nodup :=
      (List.nodup_cons.mp hrels).2
    have htnotin : t.2 ∉ ts.map (fun t => t.2) :=
      (List.nodup_cons.mp hrels).1
    have ihres := ih (copy_file fs t.1 (dst ++ t.2)).1
      (fun t' ht' => hl t' (List.mem_cons_of_mem _ ht')) hrels' hI1'
      hstep.2 hI3' hsrc'
    rw [run_copies_fst_cons]
    refine ⟨?_, ?_, ?_, ?_⟩
    · intro q hq
      rw [ihres.1 q (fun t' ht' => hq t' (List.mem_cons_of_mem _ ht'))]
      exact hlook_pres q (hq t (List.mem_cons_self t ts))
    · intro t' ht'
      rcases List.mem_cons.mp ht' with rfl | hm
      · have hnot : ∀ t'' ∈ ts, dst ++ t''.2 ≠ dst ++ t'.2 := by
          intro t'' ht'' heq
          have : t''.2 = t'.2 := List.append_cancel_left heq
          exact htnotin (this ▸ List.mem_map.mpr ⟨t'', ht'', rfl⟩)
        rw [ihres.1 (dst ++ t'.2) hnot, hstep.1, hv]
      · rw [ihres.2.1 t' hm]
        obtain ⟨_, hshape'⟩ := hl t' (List.mem_cons_of_mem _ hm)
        refine hlook_pres t'.1 ?_
        intro heq
        refine sep_append_ne hsep t'.2 t.2 ?_
        rw [← hshape']
        exact heq.symm
    · intro d hd
      exact ihres.2.2.1 d (copy_file_dirs_mono fs t.1 (dst ++ t.2) d hd)
    · intro hnd
      exact ihres.2.2.2 (copy_file_keys_nodup t.1 (dst ++ t.2) hnd)

theorem should_copy_of_eq_lookups {fs : FS} {a b : FPath} {f : FSFile}
    (ha : fs.lookupFile a = some f) (hb : fs.lookupFile b = some f) :
    should_copy fs a b = .ok false := by
  rw [should_copy_files_eval ha hb, if_neg (lt_irrefl f.mtime)]

theorem not_both_rooted {src dst q : FPath}
    (hsep : src.isPrefixOf dst = false ∧ dst.isPrefixOf src = false)
    (h1 : src.isPrefixOf q = true) (h2 : dst.isPrefixOf q = true) : False := by
  rw [List.isPrefixOf_iff_prefix] at h1 h2
  rcases List.prefix_or_prefix_of_prefix h1 h2 with h | h
  · rw [← List.isPrefixOf_iff_prefix, hsep.1] at h
    exact Bool.false_ne_true h
  · rw [← List.isPrefixOf_iff_prefix, hsep.2] at h
    exact Bool.false_ne_true h

theorem append_isPrefixOf_append {l r r' : FPath}
    (h : r.isPrefixOf r' = true) : (l ++ r).isPrefixOf (l ++ r') = true := by
  rw [List.isPrefixOf_iff_prefix] at h ⊢
  obtain ⟨t, rfl⟩ := h
  exact ⟨t, by rw [List.append_assoc]⟩

theorem isPrefixOf_append_self (l r : FPath) :
    l.isPrefixOf (l ++ r) = true := by
  rw [List.isPrefixOf_iff_prefix]
  exact List.prefix_append l r

theorem isUnder_isPrefixOf {root p : FPath} (h : isUnder root p = true) :
    root.isPrefixOf p = true := by
  unfold isUnder at h
  rw [Bool.and_eq_true] at h
  exact h.1

theorem sync_folders_ok_elim {cpu : Nat} {fs : FS} {src dst : FPath}
    {tpw : Nat} {res : FS × List Ev}
    (hok : sync_folders cpu fs src dst tpw = Except.ok res) :
    res = sync_run cpu fs src dst
    ∧ (makedirs fs dst).2.2 = true
    ∧ (sync_directories (makedirs fs dst).1 src dst).2.2 = true
    ∧ (scan_files (plan_state fs src dst) src true).any (fun e =>
        isErr (should_copy (plan_state fs src dst) e.1 (dst ++ e.2)))
      = false := by
  unfold sync_folders at hok
  split at hok
  · exact absurd hok (by simp)
  · split at hok
    · exact absurd hok (by simp)
    · split at hok
      · exact absurd hok (by simp)
      · split at hok
        · exact absurd hok (by simp)
        · rename_i h1 h2 h3 h4
          simp only [Bool.not_eq_true', Bool.not_eq_false] at h2 h3
          rw [Bool.not_eq_true] at h4
          exact ⟨(Except.ok.inj hok).symm, h2, h3, h4⟩

set_option maxHeartbeats 2000000 in
/-- C2 (amended): for trees realizable as a filesystem snapshot
(distinct file paths, no file path a prefix of another path — file or
directory — and source and destination roots not nested in one
another) with no file/directory type conflict between the two sides —
no destination file at a destination path of a needed copy parent
directory, and no destination directory at the destination path of a
source file — a successful run of `sync_folders` leaves a state whose
recomputed copy set and delete set are both empty.  The second run
recomputes its plan after a directory phase that touches only
directories, and under these hypotheses every surviving plan entry
compares the same files as the first run's plan did, so both sets
equal the sets computed here on the final state. -/
theorem sync_folders_converges (cpu : Nat) (fs : FS) (src dst : FPath)
    (tpw : Nat) (res : FS × List Ev)
    (hnd : (fs.files.map (fun e => e.1)).Nodup)
    (hsep : src.isPrefixOf dst = false ∧ dst.isPrefixOf src = false)
    (hpf : ∀ q ∈ fs.files.map (fun e => e.1),
      ∀ q' ∈ fs.files.map (fun e => e.1), q.isPrefixOf q' = true → q = q')
    (hfdir : ∀ q ∈ fs.files.map (fun e => e.1),
      ∀ x ∈ fs.dirs, q.isPrefixOf x = false)
    (hparent : ∀ p r : FPath, (p, r) ∈ scan_files fs src true →
      ∀ j, 0 < j → j < r.length → fs.lookupFile (dst ++ r.take j) = none)
    (hnodir : ∀ p r : FPath, (p, r) ∈ scan_files fs src true →
      dst ++ r ∉ fs.dirs)
    (hok : sync_folders cpu fs src dst tpw = Except.ok res) :
    copy_tasks res.1 src dst = [] ∧ delete_tasks res.1 src dst = [] := by
  obtain ⟨hres, h2, h3, h4⟩ := sync_folders_ok_elim hok
  have hnoerr : ∀ e ∈ scan_files (plan_state fs src dst) src true,
      isErr (should_copy (plan_state fs src dst) e.1 (dst ++ e.2))
        = false := by
    intro e he
    by_contra hc
    rw [Bool.not_eq_false] at hc
    have hany : (scan_files (plan_state fs src dst) src true).any (fun e =>
        isErr (should_copy (plan_state fs src dst) e.1 (dst ++ e.2)))
          = true :=
      List.any_eq_true.mpr ⟨e, he, hc⟩
    rw [h4] at hany
    exact Bool.false_ne_true hany
  have hfiles2 : (plan_state fs src dst).files = fs.files :=
    plan_state_files fs src dst
  have hexec : exec_copy_list cpu (plan_state fs src dst) src dst
      = copy_tasks (plan_state fs src dst) src dst := by
    unfold exec_copy_list chunk_size
    exact chunksOf_flatten _ _
  have hcs_eq : (copy_state cpu fs src dst).1
      = (run_copies dst (plan_state fs src dst)
          (copy_tasks (plan_state fs src dst) src dst)).1 := by
    unfold copy_state
    rw [hexec]
  have hR1 : ∀ r ∈ src_rel_paths fs src, r ≠ [] := by
    intro r hr
    obtain ⟨e, he, rfl⟩ := List.mem_map.mp hr
    exact (copy_task_shape (show (e.1, e.2) ∈ _ from he)).1
  have hR2 : ∀ r ∈ src_rel_paths fs src, ∀ r' ∈ src_rel_paths fs src,
      r.isPrefixOf r' = true → r = r' := by
    intro r hr r' hr' hpre
    obtain ⟨e, he, rfl⟩ := List.mem_map.mp hr
    obtain ⟨e', he', rfl⟩ := List.mem_map.mp hr'
    obtain ⟨hn, hsh⟩ := copy_task_shape (show (e.1, e.2) ∈ _ from he)
    obtain ⟨hn', hsh'⟩ := copy_task_shape (show (e'.1, e'.2) ∈ _ from he')
    obtain ⟨fe, hfe, _, _, _⟩ :=
      mem_scan_files.mp (show (e.1, e.2) ∈ _ from he)
    obtain ⟨fe', hfe', _, _, _⟩ :=
      mem_scan_files.mp (show (e'.1, e'.2) ∈ _ from he')
    have hin : e.1.isPrefixOf e'.1 = true := by
      rw [hsh, hsh']
      exact append_isPrefixOf_append hpre
    have heq := hpf e.1 (List.mem_map.mpr ⟨(e.1, fe), hfe, rfl⟩)
      e'.1 (List.mem_map.mpr ⟨(e'.1, fe'), hfe', rfl⟩) hin
    rw [hsh, hsh'] at heq
    exact List.append_cancel_left heq
  have hnodirs2 : ∀ p r : FPath, (p, r) ∈ scan_files fs src true →
      dst ++ r ∉ (plan_state fs src dst).dirs := by
    intro p r hscan hmem
    obtain ⟨f, hfmem, hu, _, hrel⟩ := mem_scan_files.mp hscan
    obtain ⟨hne, hsh⟩ := copy_task_shape hscan
    have hkey : p ∈ fs.files.map (fun e => e.1) :=
      List.mem_map.mpr ⟨(p, f), hfmem, rfl⟩
    rcases plan_state_dirs_char fs src dst _ hmem with h | h | ⟨e, he, hpre⟩
    · exact hnodir p r hscan h
    · have hlen := prefixesOf_length_le h
      rw [List.length_append] at hlen
      have := List.length_pos.mpr hne
      omega
    · obtain ⟨hedir, heu, herel⟩ :=
        mem_scan_directories.mp (show (e.1, e.2) ∈ _ from he)
      obtain ⟨re, hre_ne, hee⟩ := isUnder_iff.mp heu
      have he2 : e.2 = re := by
        rw [herel, hee, relOf_append]
      obtain ⟨i, hi, heq⟩ := mem_prefixesOf.mp hpre
      rw [List.length_append] at hi
      rcases le_or_lt (i + 1) dst.length with hle | hlt
      · have h1 := congrArg List.length heq
        rw [List.length_append, List.length_take, List.length_append] at h1
        have := List.length_pos.mpr hne
        omega
      · rw [List.take_append_eq_append_take,
          List.take_of_length_le (by omega)] at heq
        have hr2 : r = e.2.take (i + 1 - dst.length) :=
          List.append_cancel_left heq
        have hr_pre : r.isPrefixOf e.2 = true := by
          rw [List.isPrefixOf_iff_prefix, hr2]
          exact List.take_prefix _ _
        have hppre : p.isPrefixOf e.1 = true := by
          rw [hsh, hee, ← he2]
          exact append_isPrefixOf_append hr_pre
        rcases makedirs_dirs_new fs dst e.1 hedir with hd | hd
        · rw [hfdir p hkey e.1 hd] at hppre
          exact Bool.false_ne_true hppre
        · have hsrc_p : src <+: dst := by
            have hp1 : src <+: e.1 := by
              rw [hee]
              exact List.prefix_append _ _
            obtain ⟨k, hk, hek⟩ := mem_prefixesOf.mp hd
            rw [hek] at hp1
            exact hp1.trans (List.take_prefix _ _)
          rw [← List.isPrefixOf_iff_prefix, hsep.1] at hsrc_p
          exact Bool.false_ne_true hsrc_p
  have hI3plan : ∀ r ∈ src_rel_paths fs src,
      dst ++ r ∉ (plan_state fs src dst).dirs := by
    intro r hr
    obtain ⟨e, he, rfl⟩ := List.mem_map.mp hr
    exact hnodirs2 e.1 e.2 (show (e.1, e.2) ∈ _ from he)
  have hTscan : ∀ t ∈ copy_tasks (plan_state fs src dst) src dst,
      (t.1, t.2) ∈ scan_files fs src true := by
    intro t ht
    have hm := (mem_copy_tasks.mp (show (t.1, t.2) ∈ _ from ht)).1
    rw [scan_files_congr hfiles2] at hm
    exact hm
  have hl : ∀ t ∈ copy_tasks (plan_state fs src dst) src dst,
      t.2 ∈ src_rel_paths fs src ∧ t.1 = src ++ t.2 := by
    intro t ht
    have hs := hTscan t ht
    exact ⟨List.mem_map.mpr ⟨(t.1, t.2), hs, rfl⟩,
      (copy_task_shape hs).2⟩
  have hnd2 : ((plan_state fs src dst).files.map (fun e => e.1)).Nodup := by
    rw [hfiles2]
    exact hnd
  have hrels : ((copy_tasks (plan_state fs src dst) src dst).map
      (fun t => t.2)).Nodup := copy_tasks_rels_nodup src dst hnd2
  have hI1 : ∀ k, 0 < k → k ≤ dst.length →
      dst.take k ∈ (plan_state fs src dst).dirs := by
    intro k h0 hk
    unfold plan_state sync_directories
    exact sync_directories_aux_dirs_mono dst _ _ _
      (makedirs_ok_prefixes h2 k h0 hk)
  have hI2 : ∀ r ∈ src_rel_paths fs src, ∀ j, 0 < j → j < r.length →
      (plan_state fs src dst).lookupFile (dst ++ r.take j) = none := by
    intro r hr j h0 hj
    obtain ⟨e, he, rfl⟩ := List.mem_map.mp hr
    have hp := hparent e.1 e.2 (show (e.1, e.2) ∈ _ from he) j h0 hj
    unfold FS.lookupFile at hp ⊢
    rw [hfiles2]
    exact hp
  have hsrcv : ∀ t ∈ copy_tasks (plan_state fs src dst) src dst,
      ∃ v, (plan_state fs src dst).lookupFile t.1 = some v := by
    intro t ht
    obtain ⟨f, hfmem, _, _, _⟩ := mem_scan_files.mp (hTscan t ht)
    refine ⟨f, ?_⟩
    unfold FS.lookupFile
    rw [hfiles2]
    exact mem_getFile hnd hfmem
  have copyres := run_copies_effect src dst (src_rel_paths fs src)
    (copy_tasks (plan_state fs src dst) src dst) (plan_state fs src dst)
    hsep hR1 hR2 hl hrels hI1 hI2 hI3plan hsrcv
  have hfiles_res : res.1.files = (delete_state cpu fs src dst).1.files := by
    rw [hres]
    show (final_state cpu fs src dst).fs.files = _
    unfold final_state remove_obsolete_directories
    exact remove_foldl_files _ _ _
  have hlookup_res : ∀ q, res.1.lookupFile q
      = (delete_state cpu fs src dst).1.lookupFile q := by
    intro q
    unfold FS.lookupFile
    rw [hfiles_res]
  have hD_dst : ∀ q ∈ delete_tasks (plan_state fs src dst) src dst,
      dst.isPrefixOf q = true := by
    intro q hq
    obtain ⟨r, hscan, _⟩ := mem_delete_tasks.mp hq
    obtain ⟨f, _, hu, _, _⟩ := mem_scan_files.mp hscan
    exact isUnder_isPrefixOf hu
  have hsrc_pres : ∀ q, src.isPrefixOf q = true →
      res.1.lookupFile q = fs.lookupFile q := by
    intro q hq
    rw [hlookup_res]
    unfold delete_state
    have hqD : q ∉ delete_tasks (plan_state fs src dst) src dst :=
      fun hmem => not_both_rooted hsep hq (hD_dst q hmem)
    rw [run_deletes_lookup_not_mem _ _ q hqD, hcs_eq, copyres.1 q ?_]
    · unfold FS.lookupFile
      rw [hfiles2]
    · intro t ht heq
      refine not_both_rooted hsep hq ?_
      rw [← heq]
      exact isPrefixOf_append_self dst t.2
  have htgt : ∀ t ∈ copy_tasks (plan_state fs src dst) src dst,
      res.1.lookupFile (dst ++ t.2) = fs.lookupFile t.1 := by
    intro t ht
    rw [hlookup_res]
    unfold delete_state
    have htD : dst ++ t.2 ∉ delete_tasks (plan_state fs src dst) src dst := by
      intro hmem
      obtain ⟨r', hscan', hpred⟩ := mem_delete_tasks.mp hmem
      have hr' : r' = t.2 := by
        rw [scan_rel_eq hscan', relOf_append]
      rw [hr'] at hpred
      obtain ⟨hskip, hmemrels⟩ := copy_task_not_skipped ht
      rcases hpred with h | h
      · rw [hskip] at h
        exact Bool.false_ne_true h
      · exact h hmemrels
    rw [run_deletes_lookup_not_mem _ _ _ htD, hcs_eq, copyres.2.1 t ht]
    unfold FS.lookupFile
    rw [hfiles2]
  have hother : ∀ q,
      (∀ t ∈ copy_tasks (plan_state fs src dst) src dst, dst ++ t.2 ≠ q) →
      q ∉ delete_tasks (plan_state fs src dst) src dst →
      res.1.lookupFile q = fs.lookupFile q := by
    intro q hnt hqD
    rw [hlookup_res]
    unfold delete_state
    rw [run_deletes_lookup_not_mem _ _ q hqD, hcs_eq, copyres.1 q hnt]
    unfold FS.lookupFile
    rw [hfiles2]
  have hinD : ∀ q ∈ delete_tasks (plan_state fs src dst) src dst,
      res.1.lookupFile q = none := by
    intro q hq
    rw [hlookup_res]
    unfold delete_state
    exact run_deletes_lookup_mem _ _ q hq
  have hnd_res : (res.1.files.map (fun e => e.1)).Nodup := by
    rw [hfiles_res]
    unfold delete_state
    refine run_deletes_keys_nodup _ _ ?_
    rw [hcs_eq]
    exact copyres.2.2.2 hnd2
  have hscan_transfer : ∀ p r : FPath, (p, r) ∈ scan_files fs src true →
      (p, r) ∈ scan_files res.1 src true := by
    intro p r hs
    obtain ⟨f, hfmem, hu, hskip, hrel⟩ := mem_scan_files.mp hs
    have hq1 : fs.lookupFile p = some f := mem_getFile hnd hfmem
    have hq2 : getFile res.1.files p = some f := by
      have := hsrc_pres p (isUnder_isPrefixOf hu)
      unfold FS.lookupFile at this
      rw [this]
      exact hq1
    exact mem_scan_files.mpr ⟨f, getFile_mem hq2, hu, hskip, hrel⟩
  constructor
  · show (scan_files res.1 src true).filter
      (fun e => isOkTrue (should_copy res.1 e.1 (dst ++ e.2))) = []
    apply List.filter_eq_nil_iff.mpr
    rintro ⟨p, r⟩ he hpred
    obtain ⟨f, hfmem_res, hu, hskip, hrel⟩ := mem_scan_files.mp he
    obtain ⟨hne, hsh⟩ := copy_task_shape he
    have hpres : res.1.lookupFile p = some f := mem_getFile hnd_res hfmem_res
    have hfs_p : fs.lookupFile p = some f := by
      rw [← hsrc_pres p (isUnder_isPrefixOf hu)]
      exact hpres
    have hscan_fs : (p, r) ∈ scan_files fs src true :=
      mem_scan_files.mpr ⟨f, getFile_mem hfs_p, hu, hskip, hrel⟩
    have hscan_2 : (p, r) ∈ scan_files (plan_state fs src dst) src true := by
      rw [scan_files_congr hfiles2]
      exact hscan_fs
    by_cases hT : (p, r) ∈ copy_tasks (plan_state fs src dst) src dst
    · have hd1 : res.1.lookupFile (dst ++ r) = some f :=
        (htgt (p, r) hT).trans hfs_p
      have hsc := should_copy_of_eq_lookups hpres hd1
      rw [hsc] at hpred
      exact Bool.false_ne_true hpred
    · have hnt : ∀ t ∈ copy_tasks (plan_state fs src dst) src dst,
          dst ++ t.2 ≠ dst ++ r := by
        intro t ht heq
        have ht2 : t.2 = r := List.append_cancel_left heq
        have ht1 : t.1 = p := by
          rw [(hl t ht).2, ht2, ← hsh]
        refine hT ?_
        have hte : t = (p, r) := Prod.ext ht1 ht2
        rw [← hte]
        exact ht
      have hqD : dst ++ r ∉ delete_tasks (plan_state fs src dst) src dst := by
        intro hmem
        obtain ⟨r', hscan', hpred'⟩ := mem_delete_tasks.mp hmem
        have hr' : r' = r := by
          rw [scan_rel_eq hscan', relOf_append]
        rw [hr'] at hpred'
        rcases hpred' with h | h
        · have hb : basename p = basename r := by
            rw [hsh]
            exact basename_append src hne
          have hsk := hskip rfl
          rw [hb] at hsk
          rw [hsk] at h
          exact Bool.false_ne_true h
        · exact h (List.mem_map.mpr ⟨(p, r), hscan_2, rfl⟩)
      have hpred2 : ¬ (isOkTrue (should_copy (plan_state fs src dst) p
          (dst ++ r)) = true) := by
        intro hp2
        exact hT (List.mem_filter.mpr ⟨hscan_2, hp2⟩)
      have hnoerr2 : isErr (should_copy (plan_state fs src dst) p
          (dst ++ r)) = false := hnoerr (p, r) hscan_2
      have hokf : should_copy (plan_state fs src dst) p (dst ++ r)
          = .ok false := by
        cases hsc : should_copy (plan_state fs src dst) p (dst ++ r) with
        | error u =>
          rw [hsc] at hnoerr2
          exact absurd hnoerr2 (by simp [isErr])
        | ok b =>
          cases b with
          | true =>
            rw [hsc] at hpred2
            exact absurd rfl hpred2
          | false => rfl
      have hex : pathExists (plan_state fs src dst) (dst ++ r) = true := by
        by_contra hnex
        rw [Bool.not_eq_true] at hnex
        unfold should_copy at hokf
        rw [hnex] at hokf
        simp at hokf
      have hndir : dst ++ r ∉ (plan_state fs src dst).dirs :=
        hnodirs2 p r hscan_fs
      have hdsome : ((plan_state fs src dst).lookupFile (dst ++ r)).isSome
          = true := by
        unfold pathExists at hex
        rw [Bool.or_eq_true] at hex
        rcases hex with hs | hd
        · exact hs
        · rw [decide_eq_true_eq] at hd
          exact absurd hd hndir
      obtain ⟨dfile, hdfile⟩ := Option.isSome_iff_exists.mp hdsome
      have hp2look : (plan_state fs src dst).lookupFile p = some f := by
        unfold FS.lookupFile
        rw [hfiles2]
        exact hfs_p
      have hlq : res.1.lookupFile (dst ++ r) = some dfile := by
        rw [hother (dst ++ r) hnt hqD]
        have h5 : fs.lookupFile (dst ++ r)
            = (plan_state fs src dst).lookupFile (dst ++ r) := by
          unfold FS.lookupFile
          rw [hfiles2]
        rw [h5]
        exact hdfile
      have heval_plan := should_copy_files_eval hp2look hdfile
      have heval_res := should_copy_files_eval hpres hlq
      have hfin : should_copy res.1 p (dst ++ r) = .ok false := by
        rw [heval_res, ← heval_plan]
        exact hokf
      rw [hfin] at hpred
      exact Bool.false_ne_true hpred
  · have hfilter : (scan_files res.1 dst false).filter
        (fun e => should_skip_file (basename e.2)
          || !(decide (e.2 ∈ src_rel_paths res.1 src))) = [] := by
      apply List.filter_eq_nil_iff.mpr
      rintro ⟨a, r⟩ he hpred
      obtain ⟨f, hfmem_res, hu, _, hrel⟩ := mem_scan_files.mp he
      obtain ⟨hne, hsh⟩ := copy_task_shape he
      have hpres : res.1.lookupFile a = some f :=
        mem_getFile hnd_res hfmem_res
      rw [Bool.or_eq_true] at hpred
      by_cases hTex : ∃ t ∈ copy_tasks (plan_state fs src dst) src dst,
          dst ++ t.2 = a
      · obtain ⟨t, htT, hteq⟩ := hTex
        rw [hsh] at hteq
        have hr : t.2 = r := List.append_cancel_left hteq
        have hskipf := (copy_task_not_skipped htT).1
        rw [hr] at hskipf
        have hscan_t := hTscan t htT
        have hmemrels : r ∈ src_rel_paths res.1 src := by
          have hm2 := hscan_transfer t.1 t.2 hscan_t
          rw [hr] at hm2
          exact List.mem_map.mpr ⟨(t.1, r), hm2, rfl⟩
        rcases hpred with h | h
        · rw [hskipf] at h
          exact Bool.false_ne_true h
        · simp only [Bool.not_eq_true', decide_eq_false_iff_not] at h
          exact h hmemrels
      · push_neg at hTex
        have hqD : a ∉ delete_tasks (plan_state fs src dst) src dst := by
          intro hmem
          have hn2 := hinD a hmem
          rw [hn2] at hpres
          exact absurd hpres (by simp)
        have hlq : res.1.lookupFile a
            = (plan_state fs src dst).lookupFile a := by
          rw [hother a hTex hqD]
          unfold FS.lookupFile
          rw [hfiles2]
        have hpl : getFile (plan_state fs src dst).files a = some f := by
          have := hlq.symm.trans hpres
          unfold FS.lookupFile at this
          exact this
        have hscan2 : (a, r) ∈ scan_files (plan_state fs src dst) dst false :=
          mem_scan_files.mpr ⟨f, getFile_mem hpl, hu, by simp, hrel⟩
        have hpred2 : ¬ (should_skip_file (basename r) = true
            ∨ r ∉ src_rel_paths (plan_state fs src dst) src) := by
          intro hp
          exact hqD (mem_delete_tasks.mpr ⟨r, hscan2, hp⟩)
        push_neg at hpred2
        obtain ⟨hskipne, hmemrels2⟩ := hpred2
        have hskipf : should_skip_file (basename r) = false := by
          cases hsk : should_skip_file (basename r)
          · rfl
          · exact absurd hsk hskipne
        have hmemrels : r ∈ src_rel_paths res.1 src := by
          obtain ⟨e, hescan, herel⟩ := List.mem_map.mp hmemrels2
          have hscanfs : (e.1, e.2) ∈ scan_files fs src true := by
            rw [← scan_files_congr hfiles2]
            exact hescan
          have hm2 := hscan_transfer e.1 e.2 hscanfs
          rw [herel] at hm2
          exact List.mem_map.mpr ⟨(e.1, r), hm2, rfl⟩
        rcases hpred with h | h
        · rw [hskipf] at h
          exact Bool.false_ne_true h
        · simp only [Bool.not_eq_true', decide_eq_false_iff_not] at h
          exact h hmemrels
    show ((scan_files res.1 dst false).filter
        (fun e => should_skip_file (basename e.2)
          || !(decide (e.2 ∈ src_rel_paths res.1 src)))).map (fun e => e.1)
      = []
    rw [hfilter]
    rfl

/-- Counterexample to C2 as stated, one snapshot for each direction of
a file/directory type conflict.  On `fsX` (destination file `a` where
the source has directory `a`) the first run succeeds — the copy of
`a/f.txt` fails inside the worker because `os.makedirs` raises on the
blocking file, which is then deleted — yet the recomputed copy set
still contains `a/f.txt`.  On `fsY` (empty destination directory `a`,
not older than the source file `a`) the first run succeeds —
`should_copy` returns `False` on the directory (it exists and its
timestamp is not older), and the empty obsolete directory is then
removed — yet the recomputed copy set contains `a`.  In both cases the
second run's copy set is not empty. -/
theorem sync_folders_converges_counterexample :
    (match sync_folders 1 fsX ["src"] ["dst"] 4 with
      | Except.ok res => copy_tasks res.1 ["src"] ["dst"]
      | Except.error _ => []) = [(["src", "a", "f.txt"], ["a", "f.txt"])]
    ∧ (match sync_folders 1 fsY ["src"] ["dst"] 4 with
      | Except.ok res => copy_tasks res.1 ["src"] ["dst"]
      | Except.error _ => []) = [(["src", "a"], ["a"])] := by
  constructor
  · decide
  · decide

/-- Witness for amended C2 on `fsB`: after one successful run both
recomputed sets are empty. -/
theorem sync_folders_converges_witness :
    copy_tasks (sync_run 1 fsB ["s"] ["d"]).1 ["s"] ["d"] = []
    ∧ delete_tasks (sync_run 1 fsB ["s"] ["d"]).1 ["s"] ["d"] = [] := by
  refine sync_folders_converges 1 fsB ["s"] ["d"] 4 (sync_run 1 fsB ["s"] ["d"])
    (by decide) (by decide) (by decide) (by decide) ?_ ?_ (by rfl)
  · intro p r h j hj0 hj
    rw [show scan_files fsB ["s"] true = [(["s", "a.txt"], ["a.txt"])] from rfl,
      List.mem_singleton, Prod.mk.injEq] at h
    obtain ⟨rfl, rfl⟩ := h
    exfalso
    simp at hj
    omega
  · intro p r h
    rw [show scan_files fsB ["s"] true = [(["s", "a.txt"], ["a.txt"])] from rfl,
      List.mem_singleton, Prod.mk.injEq] at h
    obtain ⟨rfl, rfl⟩ := h
    decide

/- ### Event-kind lemmas for the trace -/

theorem makedirsAux_events_mkdir (fs : FS) (l : List FPath) :
    ∀ e ∈ (makedirsAux fs l).2.1, isMkdirEv e = true := by
  induction l generalizing fs with
  | nil => intro e he; exact absurd he (List.not_mem_nil e)
  | cons q qs ih =>
    intro e he
    rw [makedirsAux_cons] at he
    by_cases hd : q ∈ fs.dirs
    · rw [if_pos hd] at he
      exact ih fs e he
    · rw [if_neg hd] at he
      by_cases hs : (fs.lookupFile q).isSome
      · rw [if_pos hs] at he
        exact absurd he (List.not_mem_nil e)
      · rw [if_neg hs] at he
        rcases List.mem_cons.mp he with rfl | hm
        · rfl
        · exact ih _ e hm

theorem sync_directories_aux_events_mkdir (dst : FPath) (fs : FS)
    (l : List (FPath × FPath)) :
    ∀ e ∈ (sync_directories_aux dst fs l).2.1, isMkdirEv e = true := by
  induction l generalizing fs with
  | nil => intro e he; exact absurd he (List.not_mem_nil e)
  | cons x t ih =>
    intro e he
    rw [sync_directories_aux_cons] at he
    by_cases hp : pathExists fs (dst ++ x.2)
    · rw [if_pos hp] at he
      exact ih fs e he
    · rw [if_neg hp] at he
      by_cases hmk : (makedirs fs (dst ++ x.2)).2.2
      · rw [if_pos hmk] at he
        rcases List.mem_append.mp he with hm | hm
        · exact makedirsAux_events_mkdir fs _ e hm
        · exact ih _ e hm
      · rw [if_neg hmk] at he
        exact makedirsAux_events_mkdir fs _ e he

theorem run_copies_events_kinds (dst : FPath) (fs : FS)
    (l : List (FPath × FPath)) :
    ∀ e ∈ (run_copies dst fs l).2,
      isMkdirEv e = true ∨ isCopyEv e = true := by
  induction l generalizing fs with
  | nil => intro e he; exact absurd he (List.not_mem_nil e)
  | cons t ts ih =>
    intro e he
    rcases List.mem_append.mp he with hm | hm
    · revert hm
      unfold copy_file
      split
      · split
        · intro hm
          exact Or.inl (makedirsAux_events_mkdir fs _ e hm)
        · split
          · split
            · intro hm
              exact Or.inl (makedirsAux_events_mkdir fs _ e hm)
            · intro hm
              rcases List.mem_append.mp hm with hm' | hm'
              · exact Or.inl (makedirsAux_events_mkdir fs _ e hm')
              · rw [List.mem_singleton] at hm'
                rw [hm']
                exact Or.inr rfl
          · intro hm
            rcases List.mem_append.mp hm with hm' | hm'
            · exact Or.inl (makedirsAux_events_mkdir fs _ e hm')
            · rw [List.mem_singleton] at hm'
              rw [hm']
              exact Or.inr rfl
      · intro hm
        exact Or.inl (makedirsAux_events_mkdir fs _ e hm)
    · exact ih _ e hm

theorem run_deletes_events_del (fs : FS) (l : List FPath) :
    ∀ e ∈ (run_deletes fs l).2, isDelEv e = true := by
  induction l generalizing fs with
  | nil => intro e he; exact absurd he (List.not_mem_nil e)
  | cons p ps ih =>
    intro e he
    rcases List.mem_append.mp he with hm | hm
    · revert hm
      unfold delete_file
      split
      · intro hm
        rw [List.mem_singleton] at hm
        rw [hm]
        rfl
      · intro hm
        exact absurd hm (List.not_mem_nil e)
    · exact ih _ e hm

theorem rmdir_map_events (l : List (FPath × FPath)) :
    ∀ e ∈ l.map (fun x => Ev.rmdir x.1), isRmdirEv e = true := by
  intro e he
  obtain ⟨x, _, rfl⟩ := List.mem_map.mp he
  rfl

theorem makedirsAux_no_events (fs : FS) (l : List FPath)
    (h : ∀ q ∈ l, q ∈ fs.dirs ∨ (fs.lookupFile q).isSome = true) :
    (makedirsAux fs l).2.1 = [] := by
  induction l generalizing fs with
  | nil => rfl
  | cons q qs ih =>
    rw [makedirsAux_cons]
    by_cases hd : q ∈ fs.dirs
    · rw [if_pos hd]
      exact ih fs (fun q' hq' => h q' (List.mem_cons_of_mem _ hq'))
    · rw [if_neg hd]
      rcases h q (List.mem_cons_self q qs) with hdd | hss
      · exact absurd hdd hd
      · rw [if_pos hss]

theorem copy_file_lookup_isSome {fs : FS} (s d q : FPath)
    (h : (fs.lookupFile q).isSome = true) :
    ((copy_file fs s d).1.lookupFile q).isSome = true := by
  unfold copy_file
  split
  · split
    · show (((makedirs fs d.dropLast).1).lookupFile q).isSome = true
      rw [makedirs_lookup]
      exact h
    · rename_i v hv
      split
      · split
        · show (((makedirs fs d.dropLast).1).lookupFile q).isSome = true
          rw [makedirs_lookup]
          exact h
        · show ((setFile (makedirs fs d.dropLast).1
              (d ++ [basename s]) v).lookupFile q).isSome = true
          rw [setFile_lookup]
          split
          · rfl
          · rw [makedirs_lookup]
            exact h
      · show ((setFile (makedirs fs d.dropLast).1 d v).lookupFile q).isSome
          = true
        rw [setFile_lookup]
        split
        · rfl
        · rw [makedirs_lookup]
          exact h
  · show (((makedirs fs d.dropLast).1).lookupFile q).isSome = true
    rw [makedirs_lookup]
    exact h

theorem copy_file_events_copy {fs : FS} (s d : FPath)
    (h : ∀ q ∈ prefixesOf d.dropLast,
      q ∈ fs.dirs ∨ (fs.lookupFile q).isSome = true) :
    ∀ e ∈ (copy_file fs s d).2, isCopyEv e = true := by
  have hmk : (makedirs fs d.dropLast).2.1 = [] := makedirsAux_no_events fs _ h
  intro e he
  revert he
  unfold copy_file
  split
  · split
    · rw [hmk]
      intro he
      exact absurd he (List.not_mem_nil e)
    · split
      · split
        · rw [hmk]
          intro he
          exact absurd he (List.not_mem_nil e)
        · rw [hmk, List.nil_append, List.mem_singleton]
          intro he
          rw [he]
          rfl
      · rw [hmk, List.nil_append, List.mem_singleton]
        intro he
        rw [he]
        rfl
  · rw [hmk]
    intro he
    exact absurd he (List.not_mem_nil e)

theorem run_copies_events_copy (dst : FPath) (fs : FS)
    (l : List (FPath × FPath))
    (h : ∀ t ∈ l, ∀ q ∈ prefixesOf ((dst ++ t.2).dropLast),
      q ∈ fs.dirs ∨ (fs.lookupFile q).isSome = true) :
    ∀ e ∈ (run_copies dst fs l).2, isCopyEv e = true := by
  induction l generalizing fs with
  | nil => intro e he; exact absurd he (List.not_mem_nil e)
  | cons t ts ih =>
    intro e he
    rcases List.mem_append.mp he with hm | hm
    · exact copy_file_events_copy t.1 (dst ++ t.2)
        (h t (List.mem_cons_self t ts)) e hm
    · refine ih _ ?_ e hm
      intro t' ht' q hq
      rcases h t' (List.mem_cons_of_mem _ ht') q hq with hd | hs
      · exact Or.inl (copy_file_dirs_mono fs t.1 (dst ++ t.2) q hd)
      · exact Or.inr (copy_file_lookup_isSome t.1 (dst ++ t.2) q hs)

theorem sync_directories_aux_covers (dst : FPath) (fs : FS)
    (l : List (FPath × FPath))
    (hok : (sync_directories_aux dst fs l).2.2 = true)
    (hne : ∀ e ∈ l, dst ++ e.2 ≠ []) :
    ∀ e ∈ l, dst ++ e.2 ∈ (sync_directories_aux dst fs l).1.dirs
      ∨ (((sync_directories_aux dst fs l).1.lookupFile (dst ++ e.2)).isSome
          = true) := by
  induction l generalizing fs with
  | nil => intro e he; exact absurd he (List.not_mem_nil e)
  | cons x t ih =>
    intro e he
    rw [sync_directories_aux_cons] at hok ⊢
    by_cases hp : pathExists fs (dst ++ x.2)
    · rw [if_pos hp] at hok ⊢
      rcases List.mem_cons.mp he with rfl | hm
      · unfold pathExists at hp
        rw [Bool.or_eq_true] at hp
        rcases hp with hs | hd
        · right
          unfold FS.lookupFile at hs ⊢
          rw [sync_directories_aux_files]
          exact hs
        · rw [decide_eq_true_eq] at hd
          exact Or.inl (sync_directories_aux_dirs_mono dst fs t _ hd)
      · exact ih fs hok (fun e' he' => hne e' (List.mem_cons_of_mem _ he')) e hm
    · rw [if_neg hp] at hok ⊢
      by_cases hmk : (makedirs fs (dst ++ x.2)).2.2
      · rw [if_pos hmk] at hok ⊢
        rcases List.mem_cons.mp he with rfl | hm
        · left
          have hlen : 0 < (dst ++ e.2).length :=
            List.length_pos.mpr (hne e (List.mem_cons_self e t))
          have h1 : (dst ++ e.2) ∈ (makedirs fs (dst ++ e.2)).1.dirs := by
            have := makedirs_ok_prefixes hmk (dst ++ e.2).length hlen
              (Nat.le_refl _)
            rw [List.take_length] at this
            exact this
          exact sync_directories_aux_dirs_mono dst _ t _ h1
        · exact ih _ hok
            (fun e' he' => hne e' (List.mem_cons_of_mem _ he')) e hm
      · rw [if_neg hmk] at hok
        exact absurd hok (by simp)

theorem events_before (l₁ l₂ : List Ev) (P Q : Ev → Bool)
    (h1 : ∀ e ∈ l₂, P e = false) (h2 : ∀ e ∈ l₁, Q e = false) :
    ∀ i j (hi : i < (l₁ ++ l₂).length) (hj : j < (l₁ ++ l₂).length),
      P ((l₁ ++ l₂).get ⟨i, hi⟩) = true →
      Q ((l₁ ++ l₂).get ⟨j, hj⟩) = true → i < j := by
  intro i j hi hj hP hQ
  have hiL : i < l₁.length := by
    by_contra hge
    push_neg at hge
    have hb : i - l₁.length < l₂.length := by
      rw [List.length_append] at hi
      omega
    have heq : (l₁ ++ l₂).get ⟨i, hi⟩ = l₂.get ⟨i - l₁.length, hb⟩ := by
      rw [List.get_eq_getElem, List.get_eq_getElem]
      exact List.getElem_append_right hge
    have hmm : l₂.get ⟨i - l₁.length, hb⟩ ∈ l₂ := by
      rw [List.get_eq_getElem]
      exact List.getElem_mem hb
    rw [heq, h1 _ hmm] at hP
    exact Bool.false_ne_true hP
  have hjL : l₁.length ≤ j := by
    by_contra hlt
    push_neg at hlt
    have heq : (l₁ ++ l₂).get ⟨j, hj⟩ = l₁.get ⟨j, hlt⟩ := by
      rw [List.get_eq_getElem, List.get_eq_getElem]
      exact List.getElem_append_left hlt
    have hmm : l₁.get ⟨j, hlt⟩ ∈ l₁ := by
      rw [List.get_eq_getElem]
      exact List.getElem_mem hlt
    rw [heq, h2 _ hmm] at hQ
    exact Bool.false_ne_true hQ
  omega

theorem remove_obsolete_removes_empty (fs : FS) (src dst : FPath)
    (a r : FPath) (hscan : (a, r) ∈ scan_directories fs dst)
    (hnsrc : r ∉ src_dir_rels fs src) (hemp : isEmptyDir fs a = true) :
    a ∉ (remove_obsolete_directories fs src dst).fs.dirs := by
  have hc : (a, r) ∈ obsolete_candidates fs dst :=
    mem_obsolete_candidates.mpr hscan
  obtain ⟨l₁, l₂, hdec⟩ := List.append_of_mem hc
  have hres : remove_obsolete_directories fs src dst
      = l₂.foldl (remove_step (src_dir_rels fs src))
          (remove_step (src_dir_rels fs src)
            (l₁.foldl (remove_step (src_dir_rels fs src)) ⟨fs, [], []⟩) (a, r)) := by
    unfold remove_obsolete_directories
    rw [hdec, List.foldl_append, List.foldl_cons]
  have hfiles1 : (l₁.foldl (remove_step (src_dir_rels fs src))
      ⟨fs, [], []⟩).fs.files = fs.files := remove_foldl_files _ _ _
  have hemp1 : isEmptyDir (l₁.foldl (remove_step (src_dir_rels fs src))
      ⟨fs, [], []⟩).fs a = true := by
    unfold isEmptyDir at hemp ⊢
    rw [Bool.and_eq_true] at hemp ⊢
    simp only [List.all_eq_true] at hemp ⊢
    constructor
    · rw [hfiles1]
      exact hemp.1
    · intro d hd
      exact hemp.2 d (remove_foldl_dirs_subset _ l₁ _ d hd)
  have hstep := remove_step_not_src_empty (src_dir_rels fs src)
    (l₁.foldl (remove_step (src_dir_rels fs src)) ⟨fs, [], []⟩) (a, r)
    hnsrc hemp1
  rw [hres, hstep]
  intro hmem
  have h2 := remove_foldl_dirs_subset _ l₂ _ a hmem
  rw [List.mem_filter] at h2
  simp at h2

theorem not_mkdir_of_copy {e : Ev} (h : isCopyEv e = true) :
    isMkdirEv e = false := by
  cases e <;> simp_all [isMkdirEv, isCopyEv]

theorem not_mkdir_of_del {e : Ev} (h : isDelEv e = true) :
    isMkdirEv e = false := by
  cases e <;> simp_all [isMkdirEv, isDelEv]

theorem not_mkdir_of_rmdir {e : Ev} (h : isRmdirEv e = true) :
    isMkdirEv e = false := by
  cases e <;> simp_all [isMkdirEv, isRmdirEv]

theorem not_copy_of_mkdir {e : Ev} (h : isMkdirEv e = true) :
    isCopyEv e = false := by
  cases e <;> simp_all [isMkdirEv, isCopyEv]

theorem not_rmdir_of_mkdir {e : Ev} (h : isMkdirEv e = true) :
    isRmdirEv e = false := by
  cases e <;> simp_all [isMkdirEv, isRmdirEv]

theorem not_rmdir_of_copy {e : Ev} (h : isCopyEv e = true) :
    isRmdirEv e = false := by
  cases e <;> simp_all [isCopyEv, isRmdirEv]

theorem not_rmdir_of_del {e : Ev} (h : isDelEv e = true) :
    isRmdirEv e = false := by
  cases e <;> simp_all [isDelEv, isRmdirEv]

theorem not_del_of_rmdir {e : Ev} (h : isRmdirEv e = true) :
    isDelEv e = false := by
  cases e <;> simp_all [isDelEv, isRmdirEv]

set_option maxHeartbeats 2000000 in
/-- C8: in a successful run on a well-formed snapshot (every proper
nonempty prefix of a file path is a directory), every directory-creation
event precedes every file-copy event in the trace, every file-deletion
event precedes every obsolete-directory-removal event, and a
destination directory without a source counterpart that is empty after
the delete phase is removed in the same run. -/
theorem sync_folders_phase_order (cpu : Nat) (fs : FS) (src dst : FPath)
    (tpw : Nat) (res : FS × List Ev)
    (hWF2 : ∀ q ∈ fs.files.map (fun e => e.1), ∀ j ∈ List.range q.length,
      0 < j → q.take j ∈ fs.dirs)
    (hok : sync_folders cpu fs src dst tpw = Except.ok res) :
    (∀ i j (hi : i < res.2.length) (hj : j < res.2.length),
      isMkdirEv (res.2.get ⟨i, hi⟩) = true →
      isCopyEv (res.2.get ⟨j, hj⟩) = true → i < j)
    ∧ (∀ i j (hi : i < res.2.length) (hj : j < res.2.length),
      isDelEv (res.2.get ⟨i, hi⟩) = true →
      isRmdirEv (res.2.get ⟨j, hj⟩) = true → i < j)
    ∧ (∀ a r : FPath,
      (a, r) ∈ scan_directories (delete_state cpu fs src dst).1 dst →
      r ∉ src_dir_rels (delete_state cpu fs src dst).1 src →
      isEmptyDir (delete_state cpu fs src dst).1 a = true →
      a ∉ res.1.dirs) := by
  obtain ⟨hres, h2, h3, h4⟩ := sync_folders_ok_elim hok
  have hdir_mk : ∀ e ∈ dir_events fs src dst, isMkdirEv e = true := by
    intro e he
    unfold dir_events at he
    rcases List.mem_append.mp he with hm | hm
    · exact makedirsAux_events_mkdir fs _ e hm
    · exact sync_directories_aux_events_mkdir dst _ _ e hm
  have hexec : exec_copy_list cpu (plan_state fs src dst) src dst
      = copy_tasks (plan_state fs src dst) src dst := by
    unfold exec_copy_list chunk_size
    exact chunksOf_flatten _ _
  have hcover : ∀ t ∈ copy_tasks (plan_state fs src dst) src dst,
      ∀ q ∈ prefixesOf ((dst ++ t.2).dropLast),
      q ∈ (plan_state fs src dst).dirs
        ∨ ((plan_state fs src dst).lookupFile q).isSome = true := by
    intro t ht q hq
    have hscan_t : (t.1, t.2) ∈ scan_files fs src true := by
      have hm := (mem_copy_tasks.mp (show (t.1, t.2) ∈ _ from ht)).1
      rw [scan_files_congr (plan_state_files fs src dst)] at hm
      exact hm
    obtain ⟨htne, htsh⟩ := copy_task_shape hscan_t
    obtain ⟨f, hfmem, _, _, _⟩ := mem_scan_files.mp hscan_t
    rw [dropLast_append dst htne] at hq
    obtain ⟨i, hi, rfl⟩ := List.mem_map.mp hq
    rw [List.mem_range, List.length_append, List.length_dropLast] at hi
    rcases le_or_lt (i + 1) dst.length with hle | hlt
    · left
      rw [List.take_append_eq_append_take, Nat.sub_eq_zero_of_le hle,
        List.take_zero, List.append_nil]
      unfold plan_state sync_directories
      exact sync_directories_aux_dirs_mono dst _ _ _
        (makedirs_ok_prefixes h2 (i + 1) (Nat.succ_pos i) hle)
    · have htlen : 0 < t.2.length := List.length_pos.mpr htne
      rw [List.take_append_eq_append_take,
        List.take_of_length_le (by omega)]
      have hdl : t.2.dropLast.take (i + 1 - dst.length)
          = t.2.take (i + 1 - dst.length) := by
        rw [List.dropLast_eq_take, List.take_take]
        congr 1
        omega
      rw [hdl]
      have hkey : t.1 ∈ fs.files.map (fun e => e.1) :=
        List.mem_map.mpr ⟨(t.1, f), hfmem, rfl⟩
      have hsd : src ++ t.2.take (i + 1 - dst.length) ∈ fs.dirs := by
        have hb : src.length + (i + 1 - dst.length)
            ∈ List.range t.1.length := by
          rw [List.mem_range, htsh, List.length_append]
          omega
        have hw := hWF2 t.1 hkey _ hb (by omega)
        rw [htsh, List.take_append] at hw
        exact hw
      have hmem1 : src ++ t.2.take (i + 1 - dst.length)
          ∈ (makedirs fs dst).1.dirs :=
        makedirs_dirs_mono fs dst _ hsd
      have hne_take : t.2.take (i + 1 - dst.length) ≠ [] := by
        intro hnil
        have hct := congrArg List.length hnil
        rw [List.length_take, List.length_nil] at hct
        omega
      have hscan_d : (src ++ t.2.take (i + 1 - dst.length),
          t.2.take (i + 1 - dst.length))
          ∈ scan_directories (makedirs fs dst).1 src :=
        mem_scan_directories.mpr ⟨hmem1,
          isUnder_iff.mpr ⟨_, hne_take, rfl⟩, (relOf_append _ _).symm⟩
      have hne_all : ∀ e ∈ scan_directories (makedirs fs dst).1 src,
          dst ++ e.2 ≠ [] := by
        intro e he hnil
        obtain ⟨hm, hu, hr⟩ :=
          mem_scan_directories.mp (show (e.1, e.2) ∈ _ from he)
        obtain ⟨rr, hrr, hre⟩ := isUnder_iff.mp hu
        rw [List.append_eq_nil] at hnil
        have he2 : e.2 = rr := by
          rw [hr, hre, relOf_append]
        exact hrr (he2 ▸ hnil.2)
      exact sync_directories_aux_covers dst (makedirs fs dst).1
        (scan_directories (makedirs fs dst).1 src) h3 hne_all _ hscan_d
  have hcopy_only : ∀ e ∈ (copy_state cpu fs src dst).2,
      isCopyEv e = true := by
    unfold copy_state
    refine run_copies_events_copy dst (plan_state fs src dst) _ ?_
    rw [hexec]
    exact hcover
  have hdel_only : ∀ e ∈ (delete_state cpu fs src dst).2,
      isDelEv e = true := by
    unfold delete_state
    exact run_deletes_events_del _ _
  have hrm_only : ∀ e ∈ (final_state cpu fs src dst).removed.map
      (fun x => Ev.rmdir x.1), isRmdirEv e = true := rmdir_map_events _
  refine ⟨?_, ?_, ?_⟩
  · have htr : res.2 = dir_events fs src dst
        ++ ((copy_state cpu fs src dst).2
          ++ ((delete_state cpu fs src dst).2
            ++ (final_state cpu fs src dst).removed.map
                (fun e => Ev.rmdir e.1))) := by
      rw [hres, ← List.append_assoc, ← List.append_assoc]
      rfl
    rw [htr]
    refine events_before _ _ _ _ ?_ ?_
    · intro e he
      rcases List.mem_append.mp he with hm | hm
      · exact not_mkdir_of_copy (hcopy_only e hm)
      · rcases List.mem_append.mp hm with hm2 | hm2
        · exact not_mkdir_of_del (hdel_only e hm2)
        · exact not_mkdir_of_rmdir (hrm_only e hm2)
    · intro e he
      exact not_copy_of_mkdir (hdir_mk e he)
  · have htr2 : res.2 = (dir_events fs src dst
        ++ (copy_state cpu fs src dst).2
        ++ (delete_state cpu fs src dst).2)
        ++ (final_state cpu fs src dst).removed.map
            (fun e => Ev.rmdir e.1) := by
      rw [hres]
      rfl
    rw [htr2]
    refine events_before _ _ _ _ ?_ ?_
    · intro e he
      exact not_del_of_rmdir (hrm_only e he)
    · intro e he
      rcases List.mem_append.mp he with hm | hm
      · rcases List.mem_append.mp hm with hm2 | hm2
        · exact not_rmdir_of_mkdir (hdir_mk e hm2)
        · exact not_rmdir_of_copy (hcopy_only e hm2)
      · exact not_rmdir_of_del (hdel_only e hm)
  · intro a r hscan hnsrc hemp
    rw [hres]
    show a ∉ (final_state cpu fs src dst).fs.dirs
    unfold final_state
    exact remove_obsolete_removes_empty _ src dst a r hscan hnsrc hemp

/-- Witness for C8 on `fsD`: the directory creation at trace index 0
precedes the copy at index 1, the deletion at index 3 precedes the
removal at index 4, and the stale directory emptied by the deletion is
gone from the final state. -/
theorem sync_folders_phase_order_witness :
    (0 : Nat) < 1 ∧ (3 : Nat) < 4
    ∧ ["dst", "stale"] ∉ (sync_run 4 fsD ["src"] ["dst"]).1.dirs := by
  refine ⟨?_, ?_, ?_⟩
  · exact (sync_folders_phase_order 4 fsD ["src"] ["dst"] 4
      (sync_run 4 fsD ["src"] ["dst"]) (by decide) (by rfl)).1
      0 1 (by decide) (by decide) (by decide) (by decide)
  · exact (sync_folders_phase_order 4 fsD ["src"] ["dst"] 4
      (sync_run 4 fsD ["src"] ["dst"]) (by decide) (by rfl)).2.1
      3 4 (by decide) (by decide) (by decide) (by decide)
  · exact (sync_folders_phase_order 4 fsD ["src"] ["dst"] 4
      (sync_run 4 fsD ["src"] ["dst"]) (by decide) (by rfl)).2.2
      ["dst", "stale"] ["stale"] (by decide) (by decide) (by decide)

end SyncFolder
